import Mathlib

/-!
# Sorted linked list benchmark (serial.c / parallel_rw_lock.c)

A shallow embedding of the two C programs.  Both files contain the same
`member`, `insert`, `delete`, `generate_operations`, `shuffle` and `rand_int`;
one model serves both.

* A chain of `struct list_node_s` reachable from a head pointer is the
  `List Int` of its `data` fields, `[]` for `NULL`.
* C `int` values are `Int`; the list code only compares them, so no overflow
  can occur there.
-/

namespace Lab2

/-! ## Definitions -/

/-- The values along the chain are strictly increasing. -/
def Sorted (l : List Int) : Prop := l.Pairwise (· < ·)

instance (l : List Int) : Decidable (Sorted l) := by
  unfold Sorted
  infer_instance

/-- The loop of `member`:
`while (curr_p != NULL && curr_p->data < value) curr_p = curr_p->next;`
on the chain starting at `curr_p`; the result is the chain at the final
`curr_p`. -/
def member_loop (value : Int) : List Int → List Int
  | [] => []
  | c :: rest => if c < value then member_loop value rest else c :: rest

/-- The function `member`: after the loop, `0` when `curr_p == NULL` or
`curr_p->data > value`, else `1`. -/
def member (value : Int) (head_p : List Int) : Int :=
  match member_loop value head_p with
  | [] => 0
  | c :: _ => if c > value then 0 else 1

/-- The loop shared by `insert` and `delete`:
`while (curr_p != NULL && curr_p->data < value) { pred_p = curr_p; curr_p = curr_p->next; }`.
The state is the nodes already passed, in chain order (`pred_p` is the last
of them, `pred_p == NULL` when there is none), and the chain at `curr_p`. -/
def advance (value : Int) : List Int → List Int → List Int × List Int
  | passed, [] => (passed, [])
  | passed, c :: rest =>
    if c < value then advance value (passed ++ [c]) rest else (passed, c :: rest)

/-- The function `insert`: the return value and the chain at `*head_pp`
afterwards.  The new node holds `value` and points to `curr_p`; it becomes the
head when `pred_p == NULL` and the successor of `pred_p` otherwise.  `malloc` is
taken to succeed. -/
def insert (value : Int) (head : List Int) : Int × List Int :=
  match advance value [] head with
  | (passed, []) =>
    match passed with
    | [] => (1, [value])
    | _ :: _ => (1, passed ++ [value])
  | (passed, c :: rest) =>
    if c > value then
      match passed with
      | [] => (1, value :: c :: rest)
      | _ :: _ => (1, passed ++ value :: c :: rest)
    else (0, head)

/-- The function `delete`: the return value and the chain at `*head_pp`
afterwards.  The node at `curr_p` is unlinked when it holds `value`. -/
def delete (value : Int) (head : List Int) : Int × List Int :=
  match advance value [] head with
  | (_, []) => (0, head)
  | (passed, c :: rest) =>
    if c = value then
      match passed with
      | [] => (1, rest)
      | _ :: _ => (1, passed ++ rest)
    else (0, head)

/-- One call on the list made by a single thread. -/
inductive Call where
  | ins (v : Int)
  | del (v : Int)
  deriving DecidableEq, Repr

/-- The list left by one call. -/
def Call.exec : Call → List Int → List Int
  | .ins v, head => (insert v head).2
  | .del v, head => (delete v head).2

/-- The list left by a sequence of calls, made in order. -/
def run_calls (calls : List Call) (head : List Int) : List Int :=
  calls.foldl (fun h c => c.exec h) head

/-- The call sequence contains an `insert(v)` with no `delete(v)` after it. -/
def InsertedNotDeleted (v : Int) (calls : List Call) : Prop :=
  ∃ pre post, calls = pre ++ Call.ins v :: post ∧ Call.del v ∉ post

/-! ### Faults, random draws and the operation buffer

`rand()` is a source of raw draws outside the program.  A run of the model is
given the finite sequence of raw results that `rand()` hands out, in order, as
a `List Nat` (results of `rand()` are never negative).  A loop that asks for a
draw when the sequence is used up stops with `Fault.no_draw`: on the draws
recorded so far it has not terminated.  `RAND_MAX` is a constant of the C
library and is a parameter of the model. -/

/-- Why a run stops without a result. -/
inductive Fault where
  /-- an array element outside the array was read or written -/
  | out_of_bounds
  /-- the recorded draws ran out inside a loop that needs one more -/
  | no_draw
  /-- behaviour the C standard leaves undefined: a division by zero, a signed overflow,
  a conversion of a `double` outside the range of `int` -/
  | undefined
  deriving DecidableEq, Repr

/-- Reading `array[i]`. -/
def read (array : List Int) (i : Nat) : Except Fault Int :=
  match array[i]? with
  | some x => .ok x
  | none => .error .out_of_bounds

/-- Writing `array[i] = x`. -/
def write (array : List Int) (i : Nat) (x : Int) : Except Fault (List Int) :=
  if i < array.length then .ok (array.set i x) else .error .out_of_bounds

/-- The loop of `rand_int`: `do { rnd = rand(); } while (rnd >= limit);` followed by
`return rnd % n;`.  The result is the returned value and the draws left. -/
def rand_int_loop (limit n : Nat) : List Nat → Except Fault (Nat × List Nat)
  | [] => .error .no_draw
  | rnd :: rest => if rnd ≥ limit then rand_int_loop limit n rest else .ok (rnd % n, rest)

/-- The function `rand_int`, with `limit = RAND_MAX - RAND_MAX % n`. -/
def rand_int (RAND_MAX n : Nat) (draws : List Nat) : Except Fault (Nat × List Nat) :=
  if n = 0 then .error .undefined
  else rand_int_loop (RAND_MAX - RAND_MAX % n) n draws

/-- The loop of `shuffle`, `for (i = n - 1; i > 0; i--)`, entered with the given `i`:
`j = rand_int(i + 1); tmp = array[j]; array[j] = array[i]; array[i] = tmp;`. -/
def shuffle_loop (RAND_MAX : Nat) : Nat → List Int → List Nat → Except Fault (List Int × List Nat)
  | 0, array, draws => .ok (array, draws)
  | i + 1, array, draws => do
    let (j, draws1) ← rand_int RAND_MAX (i + 1 + 1) draws
    let tmp ← read array j
    let ai ← read array (i + 1)
    let array1 ← write array j ai
    let array2 ← write array1 (i + 1) tmp
    shuffle_loop RAND_MAX i array2 draws1

/-- The function `shuffle(array, n)`: the array and the draws left afterwards. -/
def shuffle (RAND_MAX : Nat) (array : List Int) (n : Int) (draws : List Nat) :
    Except Fault (List Int × List Nat) :=
  shuffle_loop RAND_MAX (n - 1).toNat array draws

/-! ### `double` arithmetic of `generate_operations`

`(int) (m * m_member)` converts `m` to `double`, multiplies in IEEE-754 binary64
with rounding to nearest, ties to even, and truncates toward zero.  A finite
binary64 value is kept as `man * 2 ^ exp`.  The product is rounded to binary64
before the conversion (no extended precision), and `int` has 32 bits. -/

/-- A finite binary64 value `man * 2 ^ exp`, with `|man| < 2 ^ 53` and `-1074 ≤ exp`. -/
structure Double where
  man : Int
  exp : Int
  deriving DecidableEq, Repr

/-- The number of binary digits of `a`, by halving at most `fuel` times. -/
def bit_length_aux : Nat → Nat → Nat
  | 0, _ => 0
  | fuel + 1, a => if a = 0 then 0 else bit_length_aux fuel (a / 2) + 1

/-- The number of binary digits of `a`. -/
def bit_length (a : Nat) : Nat := bit_length_aux a a

/-- The binary64 value nearest to `man * 2 ^ exp` (for `-1074 ≤ exp`), ties to the even
significand: a significand of more than 53 digits loses its low digits.  The exponent is
not bounded above; where binary64 overflows to infinity the value kept here is at least
`2 ^ 1024`, and either is outside the range of `int`. -/
def round_nearest_even (man exp : Int) : Double :=
  let a := man.natAbs
  if a < 2 ^ 53 then ⟨man, exp⟩
  else
    let k := bit_length a - 53
    let q := a / 2 ^ k
    let r := a % 2 ^ k
    let half := 2 ^ (k - 1)
    let q1 := if r > half ∨ (r = half ∧ q % 2 = 1) then q + 1 else q
    ⟨man.sign * q1, exp + k⟩

/-- The product `m * d` of an `int` (exact as a `double`) and a `double`. -/
def int_times (m : Int) (d : Double) : Double :=
  round_nearest_even (m * d.man) d.exp

/-- The integer part of a `double`, toward zero. -/
def truncate (d : Double) : Int :=
  if 0 ≤ d.exp then d.man * 2 ^ d.exp.toNat else d.man.tdiv (2 ^ (-d.exp).toNat)

/-- A value of type `int` (32 bits), `undefined` outside its range. -/
def to_int (x : Int) : Except Fault Int :=
  if -2147483648 ≤ x ∧ x ≤ 2147483647 then .ok x else .error .undefined

/-- The number of slots of `operations_array`. -/
def MAX_OPERATIONS_SIZE : Nat := 10000

/-- One loop of `generate_operations`, `for (int i = start; i < end; i++)
operations_array[i] = tag;`, with `count` iterations left and the current `i`. -/
def fill_loop (tag : Int) : Nat → Int → List Int → Except Fault (List Int)
  | 0, _, array => .ok array
  | count + 1, i, array =>
    if 0 ≤ i then do
      let array1 ← write array i.toNat tag
      fill_loop tag count (i + 1) array1
    else .error .out_of_bounds

/-- The loop `for (int i = start; i < end; i++) operations_array[i] = tag;`. -/
def fill (array : List Int) (start stop tag : Int) : Except Fault (List Int) :=
  fill_loop tag (stop - start).toNat start array

/-- The three loops of `generate_operations`, before the call of `shuffle`. -/
def layout_operations (ops_member ops_insert ops_delete : Int)
    (operations_array : List Int) : Except Fault (List Int) := do
  let array1 ← fill operations_array 0 ops_member 1
  let end2 ← to_int (ops_member + ops_insert)
  let array2 ← fill array1 ops_member end2 2
  let end3 ← to_int (ops_member + ops_insert + ops_delete)
  fill array2 (ops_member + ops_insert) end3 3

/-- The function `generate_operations`, on the globals `m`, `m_member`, `m_insert`,
`m_delete` and `operations_array`: the buffer and the draws left afterwards. -/
def generate_operations (RAND_MAX : Nat) (m : Int) (m_member m_insert m_delete : Double)
    (operations_array : List Int) (draws : List Nat) :
    Except Fault (List Int × List Nat) := do
  let ops_member ← to_int (truncate (int_times m m_member))
  let ops_insert ← to_int (truncate (int_times m m_insert))
  let ops_delete ← to_int (truncate (int_times m m_delete))
  let array ← layout_operations ops_member ops_insert ops_delete operations_array
  shuffle RAND_MAX array m draws

/-- The number of slots holding `tag` among the first `m` slots. -/
def count_tag (tag : Int) (m : Nat) (array : List Int) : Nat :=
  (array.take m).count tag

/-- The binary64 value of the decimal `0.5`. -/
def double_0_5 : Double := ⟨4503599627370496, -53⟩

/-- The binary64 value nearest to the decimal `0.3`. -/
def double_0_3 : Double := ⟨5404319552844595, -54⟩

/-- The binary64 value nearest to the decimal `0.2`. -/
def double_0_2 : Double := ⟨7205759403792794, -55⟩

/-! ### The population phase of `run_experiment` -/

/-- The population loop
`for (int i = 0; i < n; i++) { int value = rand() % 65536; if (!insert(value, &head)) i--; }`
entered with the given `i` and `head`: the list and the draws left afterwards. -/
def populate_loop (n : Int) : Int → List Int → List Nat → Except Fault (List Int × List Nat)
  | i, head, [] => if i < n then .error .no_draw else .ok (head, [])
  | i, head, rnd :: rest =>
    if i < n then
      let value : Int := ((rnd % 65536 : Nat) : Int)
      let r := insert value head
      let i1 := if r.1 = 0 then i - 1 else i
      populate_loop n (i1 + 1) r.2 rest
    else .ok (head, rnd :: rest)

/-- The population phase, started with `i = 0` on the empty list. -/
def populate (n : Int) (draws : List Nat) : Except Fault (List Int × List Nat) :=
  populate_loop n 0 [] draws

/-! ### The slices of `thread_operation` -/

/-- `long local_m = m / thread_count;` (C division truncates toward zero). -/
def local_m (m thread_count : Int) : Int := m.tdiv thread_count

/-- `long my_start_index = my_rank * local_m;` -/
def my_start_index (m thread_count my_rank : Int) : Int :=
  my_rank * local_m m thread_count

/-- `long my_last_index = (my_rank + 1) * local_m;` -/
def my_last_index (m thread_count my_rank : Int) : Int :=
  (my_rank + 1) * local_m m thread_count

/-- The values of `i` taken by `for (long i = my_start_index; i < my_last_index; i++)` in
`thread_operation`, in order: the slots of `operations_array` that the thread dispatches. -/
def thread_slots (m thread_count my_rank : Int) : List Int :=
  (List.range
      (my_last_index m thread_count my_rank - my_start_index m thread_count my_rank).toNat).map
    (fun (k : Nat) => my_start_index m thread_count my_rank + (k : Int))

/-- The slots dispatched by the threads that `run_experiment` creates,
`for (long thread = 0; thread < thread_count; thread++)`, listed by rank. -/
def dispatched_slots (m thread_count : Int) : List Int :=
  (List.range thread_count.toNat).flatMap
    (fun (thread : Nat) => thread_slots m thread_count (thread : Int))

/-! ### The statistics of `main`

`main` collects the elapsed time of every call of `run_experiment` in
`execution_times` (`sample_size` entries) and prints statistics of them.  The
model takes the recorded times as given.  The arithmetic of `double` is kept
abstract: the definitions work over any field `α` with a square-root function,
so that they can be read over exact real arithmetic. -/

/-- A line that `main` prints, with the value it shows. -/
inductive Line (α : Type) where
  /-- `Average elapsed time = ... seconds` -/
  | average_elapsed_time (x : α)
  /-- `Standard deviation = ... seconds` -/
  | standard_deviation (x : α)
  /-- `Required samples size = ...` -/
  | required_samples_size (x : α)

/-- The value of `total_time` after the loop `total_time += elapsed_time`. -/
def total_time {α : Type} [Field α] (execution_times : List α) : α :=
  execution_times.foldl (fun total elapsed_time => total + elapsed_time) 0

/-- `double average_time = total_time / sample_size;` -/
def average_time {α : Type} [Field α] (execution_times : List α) : α :=
  total_time execution_times / ((execution_times.length : Int) : α)

/-- The value of `variance` after the loop
`variance += pow(execution_times[i] - average_time, 2)`. -/
def variance {α : Type} [Field α] (execution_times : List α) : α :=
  execution_times.foldl
    (fun variance elapsed_time => variance + (elapsed_time - average_time execution_times) ^ 2) 0

/-- `double standard_deviation = sqrt(variance / (sample_size - 1));` -/
def standard_deviation {α : Type} [Field α] (sqrt : α → α) (execution_times : List α) : α :=
  sqrt (variance execution_times / (((execution_times.length : Int) - 1 : Int) : α))

/-- `double sample_size_n = pow(((100 * 1.96 * standard_deviation) / (5 * average_time)), 2);` -/
def sample_size_n {α : Type} [Field α] (sqrt : α → α) (execution_times : List α) : α :=
  ((100 * (196 / 100) * standard_deviation sqrt execution_times)
    / (5 * average_time execution_times)) ^ 2

/-- The lines printed by `main` of `parallel_rw_lock.c`. -/
def main_parallel {α : Type} [Field α] (sqrt : α → α) (execution_times : List α) :
    List (Line α) :=
  Line.average_elapsed_time (average_time execution_times) ::
    (if (execution_times.length : Int) > 1 then
      [Line.standard_deviation (standard_deviation sqrt execution_times)]
    else [])

/-- The lines printed by `main` of `serial.c`. -/
def main_serial {α : Type} [Field α] (sqrt : α → α) (execution_times : List α) :
    List (Line α) :=
  Line.average_elapsed_time (average_time execution_times) ::
    (if (execution_times.length : Int) > 1 then
      [Line.standard_deviation (standard_deviation sqrt execution_times),
       Line.required_samples_size (sample_size_n sqrt execution_times)]
    else [])

/-- The value of a `double` as a rational number. -/
def Double.val (d : Double) : ℚ := (d.man : ℚ) * (2 : ℚ) ^ d.exp

/-! ### Validation of the arguments

The C function that validates the arguments stores what `sscanf` read in the
globals and calls `program_help`, which exits, when a check fails.  The model
takes the values read and answers whether the program goes on. -/

/-- The sum `a + b` of two `double`s: the exact sum, rounded to nearest. -/
def double_add (a b : Double) : Double :=
  let e := min a.exp b.exp
  round_nearest_even (a.man * 2 ^ (a.exp - e).toNat + b.man * 2 ^ (b.exp - e).toNat) e

/-- The comparison `a == b` of two finite `double`s: they have the same value. -/
def double_eq (a b : Double) : Bool :=
  let e := min a.exp b.exp
  decide (a.man * 2 ^ (a.exp - e).toNat = b.man * 2 ^ (b.exp - e).toNat)

/-- The `double` `1.0`. -/
def double_1_0 : Double := ⟨1, 0⟩

/-- The `double` `0.0`. -/
def double_0_0 : Double := ⟨0, 0⟩

/-- The `double` `1.5`. -/
def double_1_5 : Double := ⟨3, -1⟩

/-- The `double` `-0.25`. -/
def double_neg_0_25 : Double := ⟨-1, -2⟩

/-- The checks of the validating function of `serial.c`: `false` when `program_help` is
called (`argc != 7`, or `sample_size <= 0 || n <= 0 || m <= 0 ||
m_member + m_insert + m_delete != 1.0`), `true` when the program goes on. -/
def initialise_serial (argc sample_size n m : Int) (m_member m_insert m_delete : Double) :
    Bool :=
  if argc ≠ 7 then false
  else if sample_size ≤ 0 ∨ n ≤ 0 ∨ m ≤ 0
      ∨ double_eq (double_add (double_add m_member m_insert) m_delete) double_1_0 = false then
    false
  else true

/-- `const int MAX_THREADS = 1024;` -/
def MAX_THREADS : Int := 1024

/-- The checks of the validating function of `parallel_rw_lock.c`: as in `serial.c`, with
`argc != 8` and `thread_count <= 0 || thread_count > MAX_THREADS` in addition. -/
def initialise_parallel (argc thread_count sample_size n m : Int)
    (m_member m_insert m_delete : Double) : Bool :=
  if argc ≠ 8 then false
  else if thread_count ≤ 0 ∨ thread_count > MAX_THREADS then false
  else if sample_size ≤ 0 ∨ n ≤ 0 ∨ m ≤ 0
      ∨ double_eq (double_add (double_add m_member m_insert) m_delete) double_1_0 = false then
    false
  else true

/-! ### The timed window of `run_experiment` -/

/-- The loop of `destroy`, `while (current != NULL) { next = current->next; free(current);
current = next; }`: the number of nodes released. -/
def destroy_loop : List Int → Nat
  | [] => 0
  | _ :: next => destroy_loop next + 1

/-- The function `destroy`: the chain at `*head_pp` afterwards (`*head_pp = NULL;`) and the
number of nodes released. -/
def destroy (head : List Int) : List Int × Nat :=
  ([], destroy_loop head)

/-- What a thread does that others can observe: calls on `rwlock` and calls on the list,
with the operand and the value returned. -/
inductive Event where
  /-- `pthread_rwlock_rdlock(&rwlock)` -/
  | rdlock
  /-- `pthread_rwlock_wrlock(&rwlock)` -/
  | wrlock
  /-- `pthread_rwlock_unlock(&rwlock)` -/
  | unlock
  /-- `member(value, head)` -/
  | member (value ret : Int)
  /-- `insert(value, &head)` -/
  | insert (value ret : Int)
  /-- `delete(value, &head)` -/
  | delete (value ret : Int)
  deriving DecidableEq, Repr

/-- The event is a call on the list. -/
def Event.is_call : Event → Bool
  | .member _ _ => true
  | .insert _ _ => true
  | .delete _ _ => true
  | _ => false

/-- The `switch (operations_array[i])` of `serial.c`: the list afterwards and the calls made. -/
def switch_serial (tag value : Int) (head : List Int) : List Int × List Event :=
  if tag = 1 then (head, [Event.member value (member value head)])
  else if tag = 2 then ((insert value head).2, [Event.insert value (insert value head).1])
  else if tag = 3 then ((delete value head).2, [Event.delete value (delete value head).1])
  else (head, [])

/-- The `switch (operations_array[i])` of `thread_operation`: the list afterwards and the
calls made. -/
def switch_parallel (tag value : Int) (head : List Int) : List Int × List Event :=
  if tag = 1 then
    (head, [Event.rdlock, Event.member value (member value head), Event.unlock])
  else if tag = 2 then
    ((insert value head).2,
      [Event.rdlock, Event.insert value (insert value head).1, Event.unlock])
  else if tag = 3 then
    ((delete value head).2,
      [Event.rdlock, Event.delete value (delete value head).1, Event.unlock])
  else (head, [])

/-- The list, the draws left and the calls made, at the end of a loop over slots. -/
structure Outcome where
  head : List Int
  draws : List Nat
  events : List Event
  deriving DecidableEq, Repr

/-- The outcome with the calls on the lock left out. -/
def Outcome.calls (out : Outcome) : Outcome :=
  ⟨out.head, out.draws, out.events.filter Event.is_call⟩

/-- A loop `for (i = ...; i < ...; i++) { int value = rand() % 65536;
switch (operations_array[i]) ... }` with `count` iterations left, the current `i`, the
list and the draws; `body` is the `switch`. -/
def operations_loop (body : Int → Int → List Int → List Int × List Event)
    (operations_array : List Int) : Nat → Int → List Int → List Nat → Except Fault Outcome
  | 0, _, head, draws => .ok ⟨head, draws, []⟩
  | _ + 1, _, _, [] => .error .no_draw
  | count + 1, i, head, rnd :: rest =>
    if 0 ≤ i then do
      let tag ← read operations_array i.toNat
      let step := body tag ((rnd % 65536 : Nat) : Int) head
      let out ← operations_loop body operations_array count (i + 1) step.1 rest
      .ok ⟨out.head, out.draws, step.2 ++ out.events⟩
    else .error .out_of_bounds

/-- The timed loop of `run_experiment` in `serial.c`, `for (int i = 0; i < m; i++)`. -/
def serial_operations (m : Int) (operations_array head : List Int) (draws : List Nat) :
    Except Fault Outcome :=
  operations_loop switch_serial operations_array m.toNat 0 head draws

/-- The function `thread_operation` for the thread `my_rank`, run without interference:
`for (long i = my_start_index; i < my_last_index; i++)`. -/
def thread_operation (m thread_count my_rank : Int) (operations_array head : List Int)
    (draws : List Nat) : Except Fault Outcome :=
  operations_loop switch_parallel operations_array
    (my_last_index m thread_count my_rank - my_start_index m thread_count my_rank).toNat
    (my_start_index m thread_count my_rank) head draws

/-- The threads `rank, rank + 1, ...` (`count` of them), each run to its end before the
next starts.  With `thread_count = 1` this is the execution of the timed window; with more
threads it is one of the executions the scheduler may choose. -/
def threads_in_turn (m thread_count : Int) (operations_array : List Int) :
    Nat → Int → List Int → List Nat → Except Fault Outcome
  | 0, _, head, draws => .ok ⟨head, draws, []⟩
  | count + 1, rank, head, draws => do
    let out1 ← thread_operation m thread_count rank operations_array head draws
    let out2 ← threads_in_turn m thread_count operations_array count (rank + 1)
      out1.head out1.draws
    .ok ⟨out2.head, out2.draws, out1.events ++ out2.events⟩

/-- The function `run_experiment` of `serial.c`: the operation buffer afterwards and the
outcome at the end of the timed loop.  `head` is a local variable, `NULL` at the start. -/
def run_experiment_serial (RAND_MAX : Nat) (n m : Int) (m_member m_insert m_delete : Double)
    (operations_array : List Int) (draws : List Nat) :
    Except Fault (List Int × Outcome) := do
  let (array, draws1) ← generate_operations RAND_MAX m m_member m_insert m_delete
    operations_array draws
  let (head, draws2) ← populate_loop n 0 [] draws1
  let out ← serial_operations m array head draws2
  .ok (array, out)

/-- What `run_experiment` of `parallel_rw_lock.c` leaves. -/
structure ParallelRun where
  /-- the operation buffer afterwards -/
  operations_array : List Int
  /-- the outcome when all threads are joined -/
  window : Outcome
  /-- the global `head` after `destroy(&head)` -/
  head : List Int
  deriving DecidableEq, Repr

/-- The function `run_experiment` of `parallel_rw_lock.c`, the threads taken in turn;
`head` is the global list at entry. -/
def run_experiment_parallel (RAND_MAX : Nat) (thread_count n m : Int)
    (m_member m_insert m_delete : Double) (operations_array head : List Int)
    (draws : List Nat) : Except Fault ParallelRun := do
  let (array, draws1) ← generate_operations RAND_MAX m m_member m_insert m_delete
    operations_array draws
  let (head1, draws2) ← populate_loop n 0 head draws1
  let out ← threads_in_turn m thread_count array thread_count.toNat 0 head1 draws2
  .ok ⟨array, out, (destroy out.head).1⟩

/-- The loop of `main` in `parallel_rw_lock.c` over `count` repetitions: the global `head`
at the start of each repetition, from the given `head`, buffer and draws. -/
def heads_at_start (RAND_MAX : Nat) (thread_count n m : Int)
    (m_member m_insert m_delete : Double) :
    Nat → List Int → List Int → List Nat → Except Fault (List (List Int))
  | 0, _, _, _ => .ok []
  | count + 1, operations_array, head, draws => do
    let run ← run_experiment_parallel RAND_MAX thread_count n m m_member m_insert m_delete
      operations_array head draws
    let later ← heads_at_start RAND_MAX thread_count n m m_member m_insert m_delete count
      run.operations_array run.head run.window.draws
    .ok (head :: later)

/-- Modelled from the spec: `pthread_rwlock_t` belongs to the thread library, not to the
program.  The glossary describes it as a lock admitting many concurrent shared (read)
holders or one exclusive (write) holder; the state is the number of read holders and
whether a write holder exists. -/
structure RwLock where
  readers : Nat
  writer : Bool
  deriving DecidableEq, Repr

/-- The lock after `pthread_rwlock_init`: no holder. -/
def RwLock.fresh : RwLock := ⟨0, false⟩

/-- Modelled from the spec: one call of a thread seen by the lock; `none` when the call
has to wait.  A read acquisition waits only for a write holder; a write acquisition waits
for any holder; calls on the list do not touch the lock. -/
def RwLock.step (s : RwLock) : Event → Option RwLock
  | .rdlock => if s.writer then none else some ⟨s.readers + 1, false⟩
  | .wrlock => if s.writer ∨ 0 < s.readers then none else some ⟨0, true⟩
  | .unlock => if s.writer then some ⟨s.readers, false⟩ else some ⟨s.readers - 1, false⟩
  | _ => some s

/-- The lock after a sequence of calls made by any threads in the given order; `none`
when one of them has to wait. -/
def RwLock.run : RwLock → List Event → Option RwLock
  | s, [] => some s
  | s, e :: es =>
    match s.step e with
    | none => none
    | some s1 => RwLock.run s1 es

/-- The calls are none at all, or one call on the list with a read acquisition of the lock
immediately before it and the release immediately after it. -/
def ReadBracketed (block : List Event) : Prop :=
  block = [] ∨ ∃ call, call.is_call = true ∧ block = [Event.rdlock, call, Event.unlock]

/-! ## The list operations -/

theorem member_loop_eq (value : Int) (l : List Int) :
    member_loop value l = l.dropWhile (· < value) := by
  induction l with
  | nil => rfl
  | cons c rest ih =>
    by_cases h : c < value <;> simp [member_loop, List.dropWhile, h, ih]

theorem advance_eq (value : Int) (passed cur : List Int) :
    advance value passed cur
      = (passed ++ cur.takeWhile (· < value), cur.dropWhile (· < value)) := by
  induction cur generalizing passed with
  | nil => simp [advance]
  | cons c rest ih =>
    by_cases h : c < value <;> simp [advance, List.takeWhile, List.dropWhile, h, ih]

theorem insert_spec (v : Int) (l : List Int) :
    insert v l =
      match l.dropWhile (· < v) with
      | [] => (1, l.takeWhile (· < v) ++ [v])
      | c :: rest =>
        if c > v then (1, l.takeWhile (· < v) ++ v :: c :: rest) else (0, l) := by
  unfold insert
  rw [advance_eq]
  cases l.dropWhile (· < v) <;> cases l.takeWhile (· < v) <;> simp

theorem delete_spec (v : Int) (l : List Int) :
    delete v l =
      match l.dropWhile (· < v) with
      | [] => (0, l)
      | c :: rest => if c = v then (1, l.takeWhile (· < v) ++ rest) else (0, l) := by
  unfold delete
  rw [advance_eq]
  cases l.dropWhile (· < v) <;> cases l.takeWhile (· < v) <;> simp

theorem member_nil (v : Int) : member v [] = 0 := rfl

theorem member_cons (v c : Int) (rest : List Int) :
    member v (c :: rest)
      = if c < v then member v rest else if c > v then 0 else 1 := by
  by_cases h : c < v <;> simp [member, member_loop, h]

theorem insert_nil (v : Int) : insert v [] = (1, [v]) := rfl

theorem insert_cons (v c : Int) (rest : List Int) :
    insert v (c :: rest)
      = if c < v then ((insert v rest).1, c :: (insert v rest).2)
        else if c > v then (1, v :: c :: rest) else (0, c :: rest) := by
  rw [insert_spec, insert_spec]
  by_cases h : c < v
  · simp only [List.dropWhile, List.takeWhile, h, decide_True, if_true]
    cases rest.dropWhile (· < v) with
    | nil => simp
    | cons d ds => by_cases h2 : d > v <;> simp [h2]
  · simp [List.dropWhile, List.takeWhile, h]

theorem delete_nil (v : Int) : delete v [] = (0, []) := rfl

theorem delete_cons (v c : Int) (rest : List Int) :
    delete v (c :: rest)
      = if c < v then ((delete v rest).1, c :: (delete v rest).2)
        else if c = v then (1, rest) else (0, c :: rest) := by
  rw [delete_spec, delete_spec]
  by_cases h : c < v
  · simp only [List.dropWhile, List.takeWhile, h, decide_True, if_true]
    cases rest.dropWhile (· < v) with
    | nil => simp
    | cons d ds => by_cases h2 : d = v <;> simp [h2]
  · simp [List.dropWhile, List.takeWhile, h]

theorem sorted_cons {c : Int} {rest : List Int} :
    Sorted (c :: rest) ↔ (∀ x ∈ rest, c < x) ∧ Sorted rest := by
  simp [Sorted]

theorem member_eq_one_iff (v : Int) (l : List Int) (hl : Sorted l) :
    member v l = 1 ↔ v ∈ l := by
  induction l with
  | nil => simp [member_nil]
  | cons c rest ih =>
    obtain ⟨hc, hrest⟩ := sorted_cons.mp hl
    rw [member_cons]
    by_cases h1 : c < v
    · simp only [h1, if_true, ih hrest, List.mem_cons]
      constructor
      · exact Or.inr
      · rintro (h | h)
        · omega
        · exact h
    · by_cases h2 : c > v
      · simp only [h1, h2, if_true, if_false, List.mem_cons]
        constructor
        · intro h; omega
        · rintro (h | h)
          · omega
          · have := hc v h; omega
      · have : v = c := by omega
        simp [h1, h2, this]

theorem member_zero_or_one (v : Int) (l : List Int) : member v l = 0 ∨ member v l = 1 := by
  induction l with
  | nil => simp [member_nil]
  | cons c rest ih =>
    rw [member_cons]
    by_cases h1 : c < v
    · simpa [h1] using ih
    · by_cases h2 : c > v <;> simp [h1, h2]

theorem insert_zero_or_one (v : Int) (l : List Int) :
    (insert v l).1 = 0 ∨ (insert v l).1 = 1 := by
  induction l with
  | nil => simp [insert_nil]
  | cons c rest ih =>
    rw [insert_cons]
    by_cases h1 : c < v
    · simpa [h1] using ih
    · by_cases h2 : c > v <;> simp [h1, h2]

theorem insert_zero_unchanged (v : Int) (l : List Int) (h : (insert v l).1 = 0) :
    (insert v l).2 = l := by
  induction l with
  | nil => simp [insert_nil] at h
  | cons c rest ih =>
    rw [insert_cons] at h ⊢
    by_cases h1 : c < v
    · simp only [h1, if_true] at h ⊢
      rw [ih h]
    · by_cases h2 : c > v
      · simp [h1, h2] at h
      · simp [h1, h2]

theorem insert_zero_mem (v : Int) (l : List Int) (h : (insert v l).1 = 0) : v ∈ l := by
  induction l with
  | nil => simp [insert_nil] at h
  | cons c rest ih =>
    rw [insert_cons] at h
    by_cases h1 : c < v
    · simp only [h1, if_true] at h
      exact List.mem_cons_of_mem _ (ih h)
    · by_cases h2 : c > v
      · simp [h1, h2] at h
      · have : v = c := by omega
        simp [this]

theorem insert_one_perm (v : Int) (l : List Int) (h : (insert v l).1 = 1) :
    (insert v l).2.Perm (v :: l) := by
  induction l with
  | nil => simp [insert_nil]
  | cons c rest ih =>
    rw [insert_cons] at h ⊢
    by_cases h1 : c < v
    · simp only [h1, if_true] at h ⊢
      exact ((ih h).cons c).trans (List.Perm.swap v c rest)
    · by_cases h2 : c > v
      · simp [h1, h2]
      · simp [h1, h2] at h

theorem insert_one_not_mem (v : Int) (l : List Int) (hl : Sorted l)
    (h : (insert v l).1 = 1) : v ∉ l := by
  induction l with
  | nil => simp
  | cons c rest ih =>
    obtain ⟨hc, hrest⟩ := sorted_cons.mp hl
    rw [insert_cons] at h
    by_cases h1 : c < v
    · simp only [h1, if_true] at h
      have := ih hrest h
      simp only [List.mem_cons, not_or]
      exact ⟨by omega, this⟩
    · by_cases h2 : c > v
      · simp only [List.mem_cons, not_or]
        refine ⟨by omega, fun hv => ?_⟩
        have := hc v hv
        omega
      · simp [h1, h2] at h

theorem mem_insert (v x : Int) (l : List Int) :
    x ∈ (insert v l).2 ↔ x = v ∨ x ∈ l := by
  rcases insert_zero_or_one v l with h | h
  · rw [insert_zero_unchanged v l h]
    constructor
    · exact Or.inr
    · rintro (rfl | hx)
      · exact insert_zero_mem _ l h
      · exact hx
  · rw [(insert_one_perm v l h).mem_iff, List.mem_cons]

theorem sorted_insert (v : Int) (l : List Int) (hl : Sorted l) :
    Sorted (insert v l).2 := by
  induction l with
  | nil => simp [insert_nil, Sorted]
  | cons c rest ih =>
    obtain ⟨hc, hrest⟩ := sorted_cons.mp hl
    rw [insert_cons]
    by_cases h1 : c < v
    · simp only [h1, if_true]
      refine sorted_cons.mpr ⟨fun x hx => ?_, ih hrest⟩
      rcases (mem_insert v x rest).mp hx with rfl | hx
      · exact h1
      · exact hc x hx
    · by_cases h2 : c > v
      · simp only [h1, h2, if_true, if_false]
        refine sorted_cons.mpr ⟨fun x hx => ?_, hl⟩
        rcases List.mem_cons.mp hx with rfl | hx
        · exact h2
        · have := hc x hx
          omega
      · simpa [h1, h2] using hl

theorem delete_zero_or_one (v : Int) (l : List Int) :
    (delete v l).1 = 0 ∨ (delete v l).1 = 1 := by
  induction l with
  | nil => simp [delete_nil]
  | cons c rest ih =>
    rw [delete_cons]
    by_cases h1 : c < v
    · simpa [h1] using ih
    · by_cases h2 : c = v <;> simp [h1, h2]

theorem delete_zero_unchanged (v : Int) (l : List Int) (h : (delete v l).1 = 0) :
    (delete v l).2 = l := by
  induction l with
  | nil => simp [delete_nil]
  | cons c rest ih =>
    rw [delete_cons] at h ⊢
    by_cases h1 : c < v
    · simp only [h1, if_true] at h ⊢
      rw [ih h]
    · by_cases h2 : c = v
      · simp [h1, h2] at h
      · simp [h1, h2]

theorem delete_one_erase (v : Int) (l : List Int) (h : (delete v l).1 = 1) :
    (delete v l).2 = l.erase v := by
  induction l with
  | nil => simp [delete_nil] at h
  | cons c rest ih =>
    rw [delete_cons] at h ⊢
    by_cases h1 : c < v
    · simp only [h1, if_true] at h ⊢
      have hne : c ≠ v := by omega
      rw [ih h, List.erase_cons_tail (by simpa using hne)]
    · by_cases h2 : c = v
      · subst h2
        simp
      · simp [h1, h2] at h

theorem delete_one_mem (v : Int) (l : List Int) (h : (delete v l).1 = 1) : v ∈ l := by
  induction l with
  | nil => simp [delete_nil] at h
  | cons c rest ih =>
    rw [delete_cons] at h
    by_cases h1 : c < v
    · simp only [h1, if_true] at h
      exact List.mem_cons_of_mem _ (ih h)
    · by_cases h2 : c = v
      · simp [h2]
      · simp [h1, h2] at h

theorem delete_zero_not_mem (v : Int) (l : List Int) (hl : Sorted l)
    (h : (delete v l).1 = 0) : v ∉ l := by
  induction l with
  | nil => simp
  | cons c rest ih =>
    obtain ⟨hc, hrest⟩ := sorted_cons.mp hl
    rw [delete_cons] at h
    by_cases h1 : c < v
    · simp only [h1, if_true] at h
      have := ih hrest h
      simp only [List.mem_cons, not_or]
      exact ⟨by omega, this⟩
    · by_cases h2 : c = v
      · simp [h1, h2] at h
      · simp only [List.mem_cons, not_or]
        refine ⟨fun h3 => h2 h3.symm, fun hv => ?_⟩
        have := hc v hv
        omega

theorem sorted_nodup {l : List Int} (hl : Sorted l) : l.Nodup :=
  List.Pairwise.imp (fun h => Int.ne_of_lt h) hl

theorem delete_eq_filter (v : Int) (l : List Int) (hl : Sorted l) :
    (delete v l).2 = l.filter (· ≠ v) := by
  rcases delete_zero_or_one v l with h | h
  · rw [delete_zero_unchanged v l h]
    have hv := delete_zero_not_mem v l hl h
    symm
    rw [List.filter_eq_self]
    intro a ha
    have : a ≠ v := fun e => hv (e ▸ ha)
    simpa using this
  · rw [delete_one_erase v l h, (sorted_nodup hl).erase_eq_filter]
    apply List.filter_congr
    intro x _
    simp [bne, BEq.beq]

theorem sorted_delete (v : Int) (l : List Int) (hl : Sorted l) :
    Sorted (delete v l).2 := by
  rw [delete_eq_filter v l hl]
  exact List.Pairwise.sublist (List.filter_sublist l) hl

theorem mem_delete (v x : Int) (l : List Int) (hl : Sorted l) :
    x ∈ (delete v l).2 ↔ x ∈ l ∧ x ≠ v := by
  rw [delete_eq_filter v l hl]
  simp

theorem run_calls_append (cs : List Call) (c : Call) (head : List Int) :
    run_calls (cs ++ [c]) head = c.exec (run_calls cs head) := by
  simp [run_calls, List.foldl_append]

theorem sorted_exec (c : Call) (l : List Int) (hl : Sorted l) : Sorted (c.exec l) := by
  cases c with
  | ins v => exact sorted_insert v l hl
  | del v => exact sorted_delete v l hl

theorem sorted_run_calls (cs : List Call) (head : List Int) (hl : Sorted head) :
    Sorted (run_calls cs head) := by
  induction cs using List.reverseRecOn with
  | nil => exact hl
  | append_singleton cs c ih =>
    rw [run_calls_append]
    exact sorted_exec c _ ih

theorem mem_exec (c : Call) (v : Int) (l : List Int) (hl : Sorted l) :
    v ∈ c.exec l ↔ c = Call.ins v ∨ (v ∈ l ∧ c ≠ Call.del v) := by
  cases c with
  | ins w =>
    simp only [Call.exec, mem_insert, Call.ins.injEq, ne_eq, not_false_eq_true, and_true,
      reduceCtorEq]
    constructor
    · rintro (h | h)
      · exact Or.inl h.symm
      · exact Or.inr h
    · rintro (h | h)
      · exact Or.inl h.symm
      · exact Or.inr h
  | del w =>
    simp only [Call.exec, mem_delete w v l hl, Call.del.injEq, ne_eq, reduceCtorEq, false_or]
    constructor
    · rintro ⟨h1, h2⟩
      exact ⟨h1, fun e => h2 e.symm⟩
    · rintro ⟨h1, h2⟩
      exact ⟨h1, fun e => h2 e.symm⟩

theorem insertedNotDeleted_nil (v : Int) : ¬ InsertedNotDeleted v [] := by
  rintro ⟨pre, post, h, -⟩
  simp at h

theorem insertedNotDeleted_append (v : Int) (cs : List Call) (c : Call) :
    InsertedNotDeleted v (cs ++ [c])
      ↔ c = Call.ins v ∨ (InsertedNotDeleted v cs ∧ c ≠ Call.del v) := by
  constructor
  · rintro ⟨pre, post, h, hpost⟩
    rcases List.eq_nil_or_concat post with rfl | ⟨post1, d, rfl⟩
    · have hc := List.append_inj_right' h rfl
      exact Or.inl (by simpa using hc)
    · right
      have h2 : cs ++ [c] = (pre ++ Call.ins v :: post1) ++ [d] := by
        rw [h]; simp
      have e1 := List.append_inj_left' h2 rfl
      have e2 : c = d := by simpa using List.append_inj_right' h2 rfl
      have hp : Call.del v ∉ post1 ∧ ¬ Call.del v = d := by simpa [not_or] using hpost
      exact ⟨⟨pre, post1, e1, hp.1⟩, by rw [e2]; exact fun e => hp.2 e.symm⟩
  · rintro (rfl | ⟨⟨pre, post, rfl, hpost⟩, hc⟩)
    · exact ⟨cs, [], rfl, by simp⟩
    · refine ⟨pre, post ++ [c], by simp, ?_⟩
      simp only [List.mem_append, List.mem_singleton, not_or]
      exact ⟨hpost, fun e => hc e.symm⟩

theorem mem_run_calls (v : Int) (cs : List Call) :
    v ∈ run_calls cs [] ↔ InsertedNotDeleted v cs := by
  induction cs using List.reverseRecOn with
  | nil =>
    simp only [run_calls, List.foldl_nil, List.not_mem_nil, false_iff]
    exact insertedNotDeleted_nil v
  | append_singleton cs c ih =>
    rw [run_calls_append, insertedNotDeleted_append,
      mem_exec c v _ (sorted_run_calls cs [] List.Pairwise.nil), ih]

/-! ## Shuffling -/

theorem swap_perm (l : List Int) (i j : Nat) (hi : i < l.length) (hj : j < l.length) :
    ((l.set j l[i]).set i l[j]).Perm l := by
  by_cases hij : i = j
  · subst hij
    have e : l.set i l[i] = l := by
      apply List.ext_getElem (by simp)
      intro n h1 h2
      rw [List.getElem_set]
      split
      · rename_i h; subst h; rfl
      · rfl
    simp [e]
  · rw [List.perm_iff_count]
    intro a
    have hj2 : i < (l.set j l[i]).length := by simpa using hi
    rw [List.count_set _ _ _ _ hj2, List.count_set _ _ _ _ hj]
    have e : (l.set j l[i])[i] = l[i] := by
      rw [List.getElem_set]
      simp [Ne.symm hij]
    rw [e]
    have hpos : (if l[j] == a then 1 else 0) ≤ l.count a := by
      split
      · rename_i h
        have : l[j] = a := by simpa using h
        exact List.count_pos_iff.mpr (this ▸ List.getElem_mem _)
      · omega
    omega

theorem rand_int_loop_ok (limit n : Nat) (hn : 0 < n) (draws : List Nat) (r : Nat)
    (rest : List Nat) (h : rand_int_loop limit n draws = .ok (r, rest)) :
    r < n ∧ ∃ used, draws = used ++ rest := by
  induction draws with
  | nil => simp [rand_int_loop] at h
  | cons d ds ih =>
    rw [rand_int_loop] at h
    by_cases hd : d ≥ limit
    · rw [if_pos hd] at h
      obtain ⟨h1, used, h2⟩ := ih h
      exact ⟨h1, d :: used, by rw [h2]; rfl⟩
    · rw [if_neg hd] at h
      simp only [Except.ok.injEq, Prod.mk.injEq] at h
      exact ⟨h.1 ▸ Nat.mod_lt d hn, [d], by rw [h.2]; rfl⟩

theorem rand_int_loop_error (limit n : Nat) (draws : List Nat) (e : Fault)
    (h : rand_int_loop limit n draws = .error e) : e = Fault.no_draw := by
  induction draws with
  | nil =>
    simp only [rand_int_loop, Except.error.injEq] at h
    exact h.symm
  | cons d ds ih =>
    rw [rand_int_loop] at h
    by_cases hd : d ≥ limit
    · rw [if_pos hd] at h
      exact ih h
    · rw [if_neg hd] at h
      cases h

theorem rand_int_ok (RAND_MAX n : Nat) (draws : List Nat) (r : Nat) (rest : List Nat)
    (h : rand_int RAND_MAX n draws = .ok (r, rest)) :
    r < n ∧ ∃ used, draws = used ++ rest := by
  unfold rand_int at h
  by_cases hn : n = 0
  · rw [if_pos hn] at h
    cases h
  · rw [if_neg hn] at h
    exact rand_int_loop_ok _ n (Nat.pos_of_ne_zero hn) draws r rest h

theorem rand_int_error (RAND_MAX n : Nat) (hn : n ≠ 0) (draws : List Nat) (e : Fault)
    (h : rand_int RAND_MAX n draws = .error e) : e = Fault.no_draw := by
  unfold rand_int at h
  rw [if_neg hn] at h
  exact rand_int_loop_error _ n draws e h

theorem shuffle_loop_succ (RAND_MAX i : Nat) (array : List Int) (draws : List Nat) :
    shuffle_loop RAND_MAX (i + 1) array draws =
      match rand_int RAND_MAX (i + 2) draws with
      | .error e => .error e
      | .ok (j, draws1) =>
        if h : j < array.length ∧ i + 1 < array.length then
          shuffle_loop RAND_MAX i ((array.set j (array.get ⟨i + 1, h.2⟩)).set (i + 1)
            (array.get ⟨j, h.1⟩)) draws1
        else .error .out_of_bounds := by
  rw [shuffle_loop]
  cases hr : rand_int RAND_MAX (i + 1 + 1) draws with
  | error e => rfl
  | ok p =>
    obtain ⟨j, draws1⟩ := p
    simp only [bind, Except.bind, read, write]
    by_cases hj : j < array.length
    · by_cases hi : i + 1 < array.length
      · simp [hj, hi]
      · have e : array[i + 1]? = none := List.getElem?_eq_none (by omega)
        simp [hj, hi, e]
    · have e : array[j]? = none := List.getElem?_eq_none (by omega)
      simp [hj, e]

theorem shuffle_loop_result (RAND_MAX : Nat) (i : Nat) (array : List Int) (draws : List Nat)
    (hi : i = 0 ∨ i < array.length) :
    (∃ array1 rest, shuffle_loop RAND_MAX i array draws = .ok (array1, rest) ∧
        array1.Perm array ∧ ∃ used, draws = used ++ rest) ∨
      shuffle_loop RAND_MAX i array draws = .error .no_draw := by
  induction i generalizing array draws with
  | zero => exact Or.inl ⟨array, draws, rfl, List.Perm.refl _, [], rfl⟩
  | succ i ih =>
    have hlen : i + 1 < array.length := by omega
    rw [shuffle_loop_succ]
    cases hr : rand_int RAND_MAX (i + 2) draws with
    | error e =>
      have := rand_int_error RAND_MAX (i + 2) (by omega) draws e hr
      subst this
      exact Or.inr rfl
    | ok p =>
      obtain ⟨j, draws1⟩ := p
      obtain ⟨hj, used, hused⟩ := rand_int_ok RAND_MAX (i + 2) draws j draws1 hr
      have hjl : j < array.length := by omega
      simp only [dif_pos (And.intro hjl hlen)]
      have hperm : ((array.set j (array.get ⟨i + 1, hlen⟩)).set (i + 1)
          (array.get ⟨j, hjl⟩)).Perm array := swap_perm array (i + 1) j hlen hjl
      have hl2 : i = 0 ∨ i < ((array.set j (array.get ⟨i + 1, hlen⟩)).set (i + 1)
          (array.get ⟨j, hjl⟩)).length := by
        right
        simp only [List.length_set]
        omega
      rcases ih _ draws1 hl2 with ⟨a1, rest, h1, h2, used1, h3⟩ | h
      · exact Or.inl ⟨a1, rest, h1, h2.trans hperm, used ++ used1, by
          rw [hused, h3, List.append_assoc]⟩
      · exact Or.inr h

theorem shuffle_loop_append (RAND_MAX : Nat) (i : Nat) (array extra : List Int)
    (draws : List Nat) (hi : i = 0 ∨ i < array.length) :
    shuffle_loop RAND_MAX i (array ++ extra) draws =
      (shuffle_loop RAND_MAX i array draws).map (fun r => (r.1 ++ extra, r.2)) := by
  induction i generalizing array draws with
  | zero => rfl
  | succ i ih =>
    have hlen : i + 1 < array.length := by omega
    rw [shuffle_loop_succ, shuffle_loop_succ]
    cases hr : rand_int RAND_MAX (i + 2) draws with
    | error e => rfl
    | ok p =>
      obtain ⟨j, draws1⟩ := p
      obtain ⟨hj, -⟩ := rand_int_ok RAND_MAX (i + 2) draws j draws1 hr
      have hjl : j < array.length := by omega
      have hjl2 : j < (array ++ extra).length := by
        rw [List.length_append]; omega
      have hlen2 : i + 1 < (array ++ extra).length := by
        rw [List.length_append]; omega
      simp only [dif_pos (And.intro hjl hlen), dif_pos (And.intro hjl2 hlen2)]
      have hl2 : i = 0 ∨ i < ((array.set j (array.get ⟨i + 1, hlen⟩)).set (i + 1)
          (array.get ⟨j, hjl⟩)).length := by
        right
        simp only [List.length_set]
        omega
      rw [← ih _ draws1 hl2]
      congr 1
      have e1 : (array ++ extra).get ⟨i + 1, hlen2⟩ = array.get ⟨i + 1, hlen⟩ := by
        simp only [List.get_eq_getElem]
        exact List.getElem_append_left hlen
      have e2 : (array ++ extra).get ⟨j, hjl2⟩ = array.get ⟨j, hjl⟩ := by
        simp only [List.get_eq_getElem]
        exact List.getElem_append_left hjl
      rw [e1, e2, List.set_append_left _ _ hjl,
        List.set_append_left _ _ (by simpa using hlen)]

theorem rand_int_accept (RAND_MAX n d : Nat) (ds : List Nat) (hn : n ≠ 0)
    (hd : d < RAND_MAX - RAND_MAX % n) :
    rand_int RAND_MAX n (d :: ds) = .ok (d % n, ds) := by
  unfold rand_int
  rw [if_neg hn, rand_int_loop, if_neg (by omega)]

theorem shuffle_loop_total (RAND_MAX : Nat) (i : Nat) (array : List Int) (draws : List Nat)
    (hi : i = 0 ∨ i < array.length) (hlen : i ≤ draws.length)
    (hd : ∀ d ∈ draws, ∀ k, 2 ≤ k → k ≤ i + 1 → d < RAND_MAX - RAND_MAX % k) :
    ∃ r, shuffle_loop RAND_MAX i array draws = .ok r := by
  induction i generalizing array draws with
  | zero => exact ⟨_, rfl⟩
  | succ i ih =>
    have hal : i + 1 < array.length := by omega
    cases draws with
    | nil => simp at hlen
    | cons d ds =>
      rw [shuffle_loop_succ,
        rand_int_accept RAND_MAX (i + 2) d ds (by omega)
          (hd d (List.mem_cons_self _ _) (i + 2) (by omega) (by omega))]
      have hjl : d % (i + 2) < array.length := by
        have := Nat.mod_lt d (show 0 < i + 2 by omega)
        omega
      simp only [dif_pos (And.intro hjl hal)]
      apply ih
      · right
        simp only [List.length_set]
        omega
      · simpa using hlen
      · intro d1 hd1 k hk1 hk2
        exact hd d1 (List.mem_cons_of_mem _ hd1) k hk1 (by omega)

/-! ## Laying out the operations -/

theorem take_succ_set (array : List Int) (i : Nat) (tag : Int) (h : i < array.length) :
    (array.set i tag).take (i + 1) = array.take i ++ [tag] := by
  rw [List.set_eq_take_append_cons_drop, if_pos h, List.take_append_eq_append_take]
  simp [List.length_take, Nat.min_eq_left (Nat.le_of_lt h)]

theorem fill_loop_eq (tag : Int) (count i : Nat) (array : List Int)
    (h : i + count ≤ array.length) :
    fill_loop tag count (i : Int) array
      = .ok (array.take i ++ List.replicate count tag ++ array.drop (i + count)) := by
  induction count generalizing i array with
  | zero => simp [fill_loop]
  | succ count ih =>
    have hi : i < array.length := by omega
    rw [fill_loop, if_pos (Int.ofNat_nonneg i)]
    simp only [Int.toNat_ofNat, write, if_pos hi, bind, Except.bind]
    have hc : ((i : Int) + 1) = ((i + 1 : Nat) : Int) := by push_cast; rfl
    rw [hc, ih (i + 1) (array.set i tag) (by simp only [List.length_set]; omega),
      take_succ_set array i tag hi, List.drop_set, if_pos (by omega)]
    congr 1
    rw [List.replicate_succ, show i + 1 + count = i + (count + 1) by omega]
    simp

theorem fill_eq (array : List Int) (start stop : Nat) (tag : Int)
    (h1 : start ≤ stop) (h2 : stop ≤ array.length) :
    fill array (start : Int) (stop : Int) tag
      = .ok (array.take start ++ List.replicate (stop - start) tag ++ array.drop stop) := by
  unfold fill
  have e : ((stop : Int) - (start : Int)).toNat = stop - start := by omega
  rw [e, fill_loop_eq tag (stop - start) start array (by omega),
    show start + (stop - start) = stop by omega]

theorem to_int_small (c : Nat) (h : c ≤ 2147483647) : to_int (c : Int) = .ok (c : Int) := by
  unfold to_int
  rw [if_pos]
  omega

theorem layout_operations_eq (c1 c2 c3 : Nat) (operations_array : List Int)
    (h : c1 + c2 + c3 ≤ operations_array.length) (hs : c1 + c2 + c3 ≤ 2147483647) :
    layout_operations c1 c2 c3 operations_array
      = .ok (List.replicate c1 1 ++ List.replicate c2 2 ++ List.replicate c3 3
          ++ operations_array.drop (c1 + c2 + c3)) := by
  unfold layout_operations
  have e0 : (0 : Int) = ((0 : Nat) : Int) := rfl
  have e2 : (c1 : Int) + (c2 : Int) = ((c1 + c2 : Nat) : Int) := by push_cast; rfl
  have e3 : (c1 : Int) + (c2 : Int) + (c3 : Int) = ((c1 + c2 + c3 : Nat) : Int) := by
    push_cast; rfl
  rw [e3, e2, e0, fill_eq operations_array 0 c1 1 (by omega) (by omega)]
  simp only [bind, Except.bind, to_int_small (c1 + c2) (by omega),
    to_int_small (c1 + c2 + c3) hs]
  rw [fill_eq _ c1 (c1 + c2) 2 (by omega) (by simp; omega)]
  simp only []
  rw [fill_eq _ (c1 + c2) (c1 + c2 + c3) 3 (by omega) (by simp; omega)]
  congr 1
  apply List.ext_getElem?
  intro k
  simp only [List.getElem?_append, List.getElem?_take, List.getElem?_replicate,
    List.getElem?_drop, List.length_append, List.length_take, List.length_replicate,
    List.length_drop, List.take_zero, List.length_nil, Nat.sub_zero, List.nil_append]
  split_ifs <;> first | rfl | omega | (congr 1; omega)

theorem generate_operations_eq (RAND_MAX : Nat) (m_member m_insert m_delete : Double)
    (operations_array : List Int) (draws : List Nat) (c1 c2 c3 : Nat)
    (hpos : 1 ≤ c1 + c2 + c3) (hle : c1 + c2 + c3 ≤ operations_array.length)
    (hs : c1 + c2 + c3 ≤ 2147483647)
    (h1 : truncate (int_times ((c1 + c2 + c3 : Nat) : Int) m_member) = (c1 : Int))
    (h2 : truncate (int_times ((c1 + c2 + c3 : Nat) : Int) m_insert) = (c2 : Int))
    (h3 : truncate (int_times ((c1 + c2 + c3 : Nat) : Int) m_delete) = (c3 : Int)) :
    generate_operations RAND_MAX ((c1 + c2 + c3 : Nat) : Int) m_member m_insert m_delete
        operations_array draws
      = (shuffle_loop RAND_MAX (c1 + c2 + c3 - 1)
          (List.replicate c1 1 ++ List.replicate c2 2 ++ List.replicate c3 3) draws).map
          (fun r => (r.1 ++ operations_array.drop (c1 + c2 + c3), r.2)) := by
  unfold generate_operations
  rw [h1, h2, h3]
  simp only [bind, Except.bind, to_int_small c1 (by omega), to_int_small c2 (by omega),
    to_int_small c3 (by omega), layout_operations_eq c1 c2 c3 operations_array hle hs]
  unfold shuffle
  have e : (((c1 + c2 + c3 : Nat) : Int) - 1).toNat = c1 + c2 + c3 - 1 := by omega
  rw [e]
  apply shuffle_loop_append
  right
  simp only [List.length_append, List.length_replicate]
  omega

theorem count_layout (c1 c2 c3 : Nat) :
    (List.replicate c1 (1 : Int) ++ List.replicate c2 2 ++ List.replicate c3 3).count 1 = c1 ∧
    (List.replicate c1 (1 : Int) ++ List.replicate c2 2 ++ List.replicate c3 3).count 2 = c2 ∧
    (List.replicate c1 (1 : Int) ++ List.replicate c2 2 ++ List.replicate c3 3).count 3 = c3 := by
  simp [List.count_append, List.count_replicate]

theorem generate_operations_result (RAND_MAX : Nat) (m_member m_insert m_delete : Double)
    (operations_array : List Int) (draws : List Nat) (c1 c2 c3 : Nat)
    (hpos : 1 ≤ c1 + c2 + c3) (hle : c1 + c2 + c3 ≤ operations_array.length)
    (hs : c1 + c2 + c3 ≤ 2147483647)
    (h1 : truncate (int_times ((c1 + c2 + c3 : Nat) : Int) m_member) = (c1 : Int))
    (h2 : truncate (int_times ((c1 + c2 + c3 : Nat) : Int) m_insert) = (c2 : Int))
    (h3 : truncate (int_times ((c1 + c2 + c3 : Nat) : Int) m_delete) = (c3 : Int)) :
    (∃ mix rest, generate_operations RAND_MAX ((c1 + c2 + c3 : Nat) : Int) m_member m_insert
          m_delete operations_array draws
          = .ok (mix ++ operations_array.drop (c1 + c2 + c3), rest) ∧
        mix.Perm (List.replicate c1 1 ++ List.replicate c2 2 ++ List.replicate c3 3)) ∨
      generate_operations RAND_MAX ((c1 + c2 + c3 : Nat) : Int) m_member m_insert m_delete
          operations_array draws = .error .no_draw := by
  rw [generate_operations_eq RAND_MAX m_member m_insert m_delete operations_array draws
    c1 c2 c3 hpos hle hs h1 h2 h3]
  have hi : c1 + c2 + c3 - 1 = 0 ∨ c1 + c2 + c3 - 1
      < (List.replicate c1 (1 : Int) ++ List.replicate c2 2 ++ List.replicate c3 3).length := by
    right
    simp only [List.length_append, List.length_replicate]
    omega
  rcases shuffle_loop_result RAND_MAX _ _ draws hi with ⟨a1, rest, h, hp, -⟩ | h
  · exact Or.inl ⟨a1, rest, by rw [h]; rfl, hp⟩
  · exact Or.inr (by rw [h]; rfl)

theorem count_tag_mix (tag : Int) (mix tail : List Int) (c1 c2 c3 : Nat)
    (hp : mix.Perm (List.replicate c1 1 ++ List.replicate c2 2 ++ List.replicate c3 3)) :
    count_tag tag (c1 + c2 + c3) (mix ++ tail)
      = (List.replicate c1 (1 : Int) ++ List.replicate c2 2 ++ List.replicate c3 3).count tag := by
  unfold count_tag
  have hl : mix.length = c1 + c2 + c3 := by
    rw [hp.length_eq]
    simp only [List.length_append, List.length_replicate]
  rw [List.take_left' hl, hp.count_eq]

/-! ## Slices of the threads -/

theorem local_m_nat (M t : Nat) : local_m (M : Int) (t : Int) = ((M / t : Nat) : Int) := by
  unfold local_m
  rw [Int.tdiv_eq_ediv (by omega) (by omega)]
  rfl

theorem mem_thread_slots (m thread_count my_rank i : Int) :
    i ∈ thread_slots m thread_count my_rank
      ↔ my_start_index m thread_count my_rank ≤ i ∧ i < my_last_index m thread_count my_rank := by
  unfold thread_slots
  simp only [List.mem_map, List.mem_range]
  constructor
  · rintro ⟨k, hk, rfl⟩
    omega
  · rintro ⟨h1, h2⟩
    exact ⟨(i - my_start_index m thread_count my_rank).toNat, by omega, by omega⟩

theorem thread_slots_nat (M t r : Nat) :
    thread_slots (M : Int) (t : Int) (r : Int)
      = (List.range (M / t)).map (fun (k : Nat) => ((r * (M / t) + k : Nat) : Int)) := by
  unfold thread_slots my_last_index my_start_index
  rw [local_m_nat]
  have e : ((((r : Int) + 1) * ((M / t : Nat) : Int)) - (r : Int) * ((M / t : Nat) : Int)).toNat
      = M / t := by
    have : (((r : Int) + 1) * ((M / t : Nat) : Int)) - (r : Int) * ((M / t : Nat) : Int)
        = ((M / t : Nat) : Int) := by ring
    rw [this]
    exact Int.toNat_ofNat _
  rw [e]
  apply List.map_congr_left
  intro k _
  push_cast
  rfl

theorem flatMap_thread_slots (M t n : Nat) :
    (List.range n).flatMap (fun (thread : Nat) => thread_slots (M : Int) (t : Int) (thread : Int))
      = (List.range (n * (M / t))).map (fun (i : Nat) => (i : Int)) := by
  induction n with
  | zero => simp
  | succ n ih =>
    rw [List.range_succ, List.flatMap_append, ih, Nat.succ_mul, List.range_add,
      List.map_append, List.map_map]
    simp only [List.flatMap_cons, List.flatMap_nil, List.append_nil, thread_slots_nat]
    rfl

theorem dispatched_slots_nat (M t : Nat) :
    dispatched_slots (M : Int) (t : Int)
      = (List.range (t * (M / t))).map (fun (i : Nat) => (i : Int)) := by
  unfold dispatched_slots
  rw [Int.toNat_ofNat]
  exact flatMap_thread_slots M t t

theorem thread_slots_disjoint (m thread_count r s i : Int) (hL : 0 ≤ local_m m thread_count)
    (hrs : r < s) (hr : i ∈ thread_slots m thread_count r)
    (hs : i ∈ thread_slots m thread_count s) : False := by
  rw [mem_thread_slots] at hr hs
  unfold my_start_index my_last_index at hr hs
  have h1 : (r + 1) * local_m m thread_count ≤ s * local_m m thread_count :=
    Int.mul_le_mul_of_nonneg_right (by omega) hL
  omega

theorem thread_slots_exists (m thread_count i : Int) (hi : 0 ≤ i)
    (hlt : i < thread_count * local_m m thread_count) (hL : 0 ≤ local_m m thread_count) :
    ∃ r, (0 ≤ r ∧ r < thread_count) ∧ i ∈ thread_slots m thread_count r := by
  have hLpos : 0 < local_m m thread_count := by
    rcases lt_or_ge 0 (local_m m thread_count) with h | h
    · exact h
    · have h0 : local_m m thread_count = 0 := by omega
      rw [h0, Int.mul_zero] at hlt
      omega
  refine ⟨i / local_m m thread_count, ⟨Int.ediv_nonneg hi hL, ?_⟩, ?_⟩
  · exact Int.ediv_lt_of_lt_mul hLpos hlt
  · rw [mem_thread_slots]
    unfold my_start_index my_last_index
    exact ⟨Int.ediv_mul_le i (by omega), Int.lt_ediv_add_one_mul_self i hLpos⟩

/-! ## The population phase -/

theorem populate_loop_cons (n i : Int) (head : List Int) (d : Nat) (ds : List Nat)
    (hi : i < n) :
    populate_loop n i head (d :: ds) =
      populate_loop n
        ((if (insert ((d % 65536 : Nat) : Int) head).1 = 0 then i - 1 else i) + 1)
        (insert ((d % 65536 : Nat) : Int) head).2 ds := by
  rw [populate_loop, if_pos hi]

theorem populate_loop_collision (n i : Int) (head : List Int) (d : Nat) (ds : List Nat)
    (hi : i < n) (hs : Sorted head) (hmem : ((d % 65536 : Nat) : Int) ∈ head) :
    populate_loop n i head (d :: ds) = populate_loop n i head ds := by
  have h0 : (insert ((d % 65536 : Nat) : Int) head).1 = 0 := by
    rcases insert_zero_or_one ((d % 65536 : Nat) : Int) head with h | h
    · exact h
    · exact absurd hmem (insert_one_not_mem _ head hs h)
  rw [populate_loop_cons n i head d ds hi, if_pos h0, insert_zero_unchanged _ head h0]
  congr 1
  omega

theorem populate_loop_fresh (n i : Int) (head : List Int) (d : Nat) (ds : List Nat)
    (hi : i < n) (hmem : ((d % 65536 : Nat) : Int) ∉ head) :
    populate_loop n i head (d :: ds)
      = populate_loop n (i + 1) (insert ((d % 65536 : Nat) : Int) head).2 ds ∧
    (insert ((d % 65536 : Nat) : Int) head).2.Perm (((d % 65536 : Nat) : Int) :: head) := by
  have h1 : (insert ((d % 65536 : Nat) : Int) head).1 = 1 := by
    rcases insert_zero_or_one ((d % 65536 : Nat) : Int) head with h | h
    · exact absurd (insert_zero_mem _ head h) hmem
    · exact h
  refine ⟨?_, insert_one_perm _ head h1⟩
  rw [populate_loop_cons n i head d ds hi, h1]
  simp

theorem populate_loop_result (n : Int) (draws : List Nat) (i : Int) (head : List Int)
    (hlen : (head.length : Int) = i) (hle : i ≤ n) (hs : Sorted head)
    (hr : ∀ x ∈ head, 0 ≤ x ∧ x < 65536) :
    (∃ res rest used, populate_loop n i head draws = .ok (res, rest) ∧
        (res.length : Int) = n ∧ Sorted res ∧ (∀ x ∈ res, 0 ≤ x ∧ x < 65536) ∧
        draws = used ++ rest ∧
        ∀ x, x ∈ res ↔ x ∈ head ∨ ∃ d ∈ used, x = ((d % 65536 : Nat) : Int)) ∨
      populate_loop n i head draws = .error .no_draw := by
  induction draws generalizing i head with
  | nil =>
    rw [populate_loop]
    by_cases hi : i < n
    · rw [if_pos hi]
      exact Or.inr rfl
    · rw [if_neg hi]
      exact Or.inl ⟨head, [], [], rfl, by omega, hs, hr, rfl, by simp⟩
  | cons d ds ih =>
    by_cases hi : i < n
    · by_cases hmem : ((d % 65536 : Nat) : Int) ∈ head
      · rw [populate_loop_collision n i head d ds hi hs hmem]
        rcases ih i head hlen hle hs hr with ⟨res, rest, used, h1, h2, h3, h4, h5, h6⟩ | h
        · refine Or.inl ⟨res, rest, d :: used, h1, h2, h3, h4, by rw [h5]; rfl, fun x => ?_⟩
          rw [h6 x]
          constructor
          · rintro (h | ⟨e, he, hx⟩)
            · exact Or.inl h
            · exact Or.inr ⟨e, List.mem_cons_of_mem _ he, hx⟩
          · rintro (h | ⟨e, he, hx⟩)
            · exact Or.inl h
            · rcases List.mem_cons.mp he with rfl | he
              · exact Or.inl (hx ▸ hmem)
              · exact Or.inr ⟨e, he, hx⟩
        · exact Or.inr h
      · obtain ⟨hstep, hperm⟩ := populate_loop_fresh n i head d ds hi hmem
        rw [hstep]
        have hlen2 : (((insert ((d % 65536 : Nat) : Int) head).2.length : Nat) : Int) = i + 1 := by
          rw [hperm.length_eq, List.length_cons]
          push_cast
          omega
        have hr2 : ∀ x ∈ (insert ((d % 65536 : Nat) : Int) head).2, 0 ≤ x ∧ x < 65536 := by
          intro x hx
          rcases List.mem_cons.mp (hperm.mem_iff.mp hx) with rfl | hx
          · have := Nat.mod_lt d (show 0 < 65536 by decide)
            omega
          · exact hr x hx
        rcases ih (i + 1) _ hlen2 (by omega) (sorted_insert _ head hs) hr2
          with ⟨res, rest, used, h1, h2, h3, h4, h5, h6⟩ | h
        · refine Or.inl ⟨res, rest, d :: used, h1, h2, h3, h4, by rw [h5]; rfl, fun x => ?_⟩
          rw [h6 x, hperm.mem_iff, List.mem_cons]
          constructor
          · rintro ((h | h) | ⟨e, he, hx⟩)
            · exact Or.inr ⟨d, List.mem_cons_self _ _, h⟩
            · exact Or.inl h
            · exact Or.inr ⟨e, List.mem_cons_of_mem _ he, hx⟩
          · rintro (h | ⟨e, he, hx⟩)
            · exact Or.inl (Or.inr h)
            · rcases List.mem_cons.mp he with rfl | he
              · exact Or.inl (Or.inl hx)
              · exact Or.inr ⟨e, he, hx⟩
        · exact Or.inr h
    · rw [populate_loop, if_neg hi]
      exact Or.inl ⟨head, d :: ds, [], rfl, by omega, hs, hr, rfl, by simp⟩

theorem populate_loop_total (n : Int) (draws : List Nat) (i : Int) (head : List Int)
    (hs : Sorted head)
    (hc : (n - i).toNat
      ≤ ((draws.map (fun (d : Nat) => ((d % 65536 : Nat) : Int))).toFinset
          \ head.toFinset).card) :
    ∃ r, populate_loop n i head draws = .ok r := by
  induction draws generalizing i head with
  | nil =>
    have hi : ¬ i < n := by
      simp only [List.map_nil, List.toFinset_nil, Finset.empty_sdiff, Finset.card_empty] at hc
      omega
    exact ⟨_, by rw [populate_loop, if_neg hi]⟩
  | cons d ds ih =>
    by_cases hi : i < n
    · by_cases hmem : ((d % 65536 : Nat) : Int) ∈ head
      · rw [populate_loop_collision n i head d ds hi hs hmem]
        apply ih i head hs
        refine le_trans hc (Finset.card_le_card ?_)
        intro x hx
        simp only [List.map_cons, List.toFinset_cons, Finset.mem_sdiff, Finset.mem_insert,
          List.mem_toFinset] at hx ⊢
        rcases hx with ⟨rfl | hx, hnot⟩
        · exact absurd hmem hnot
        · exact ⟨hx, hnot⟩
      · obtain ⟨hstep, -⟩ := populate_loop_fresh n i head d ds hi hmem
        rw [hstep]
        apply ih (i + 1) _ (sorted_insert _ head hs)
        have hsub : ((List.map (fun (d : Nat) => ((d % 65536 : Nat) : Int)) (d :: ds)).toFinset
              \ head.toFinset)
            ⊆ Insert.insert ((d % 65536 : Nat) : Int)
                ((List.map (fun (d : Nat) => ((d % 65536 : Nat) : Int)) ds).toFinset
                  \ (insert ((d % 65536 : Nat) : Int) head).2.toFinset) := by
          intro x hx
          simp only [List.map_cons, List.toFinset_cons, Finset.mem_sdiff, Finset.mem_insert,
            List.mem_toFinset, mem_insert] at hx ⊢
          rcases hx with ⟨rfl | hx, hnot⟩
          · exact Or.inl rfl
          · by_cases hxv : x = ((d % 65536 : Nat) : Int)
            · exact Or.inl hxv
            · exact Or.inr ⟨hx, fun h => h.elim hxv hnot⟩
        have h1 := Finset.card_le_card hsub
        have h2 := Finset.card_insert_le ((d % 65536 : Nat) : Int)
          ((List.map (fun (d : Nat) => ((d % 65536 : Nat) : Int)) ds).toFinset
            \ (insert ((d % 65536 : Nat) : Int) head).2.toFinset)
        omega
    · exact ⟨_, by rw [populate_loop, if_neg hi]⟩

/-! ## Statistics -/

theorem foldl_add_map {α : Type} [Field α] (f : α → α) (l : List α) (a : α) :
    l.foldl (fun acc x => acc + f x) a = a + (l.map f).sum := by
  induction l generalizing a with
  | nil => simp
  | cons x xs ih =>
    rw [List.foldl_cons, ih, List.map_cons, List.sum_cons, add_assoc]

theorem total_time_eq_sum {α : Type} [Field α] (execution_times : List α) :
    total_time execution_times = execution_times.sum := by
  unfold total_time
  have h := foldl_add_map (fun x : α => x) execution_times 0
  simpa using h

theorem variance_eq_sum {α : Type} [Field α] (execution_times : List α) :
    variance execution_times
      = (execution_times.map (fun x => (x - average_time execution_times) ^ 2)).sum := by
  unfold variance
  rw [foldl_add_map (fun x => (x - average_time execution_times) ^ 2) execution_times 0,
    zero_add]

theorem sqrt_five_halves_near : |Real.sqrt (5 / 2) - 15811 / 10000| < 1 / 10000 := by
  have h1 : (1581 / 1000 : ℝ) < Real.sqrt (5 / 2) := by
    rw [Real.lt_sqrt (by norm_num)]
    norm_num
  have h2 : Real.sqrt (5 / 2) < (15812 / 10000 : ℝ) := by
    rw [Real.sqrt_lt' (by norm_num)]
    norm_num
  rw [abs_lt]
  constructor <;> linarith

/-! ## Insert and delete undo each other -/

theorem delete_after_insert (v : Int) (l : List Int) (hv : v ∉ l) :
    delete v (insert v l).2 = (1, l) := by
  induction l with
  | nil => simp [insert_nil, delete_cons, delete_nil]
  | cons c rest ih =>
    have hne : v ≠ c := fun e => hv (e ▸ List.mem_cons_self _ _)
    have hrest : v ∉ rest := fun h => hv (List.mem_cons_of_mem _ h)
    rw [insert_cons]
    by_cases h1 : c < v
    · simp only [h1, if_true]
      rw [delete_cons, if_pos h1, ih hrest]
    · have h2 : c > v := by omega
      simp only [h1, h2, if_true, if_false]
      rw [delete_cons]
      simp

theorem insert_above (c : Int) (rest : List Int) (h : ∀ x ∈ rest, c < x) :
    insert c rest = (1, c :: rest) := by
  cases rest with
  | nil => rfl
  | cons d ds =>
    have hd : c < d := h d (List.mem_cons_self _ _)
    rw [insert_cons, if_neg (by omega), if_pos hd]

theorem insert_after_delete (v : Int) (l : List Int) (hl : Sorted l) (hv : v ∈ l) :
    insert v (delete v l).2 = (1, l) := by
  induction l with
  | nil => simp at hv
  | cons c rest ih =>
    obtain ⟨hc, hrest⟩ := sorted_cons.mp hl
    rw [delete_cons]
    by_cases h1 : c < v
    · have hvr : v ∈ rest := by
        rcases List.mem_cons.mp hv with h | h
        · omega
        · exact h
      simp only [h1, if_true]
      rw [insert_cons, if_pos h1, ih hrest hvr]
    · have hvc : c = v := by
        rcases List.mem_cons.mp hv with h | h
        · exact h.symm
        · have := hc v h
          omega
      subst hvc
      rw [if_neg h1, if_pos rfl]
      exact insert_above c rest hc

/-! ## Rejection sampling in `rand_int` -/

theorem rand_int_loop_first (limit n : Nat) (draws : List Nat)
    (hd : ∃ d ∈ draws, d < limit) :
    ∃ skipped d rest, draws = skipped ++ d :: rest ∧ (∀ x ∈ skipped, limit ≤ x) ∧ d < limit ∧
      rand_int_loop limit n draws = .ok (d % n, rest) := by
  induction draws with
  | nil =>
    obtain ⟨d, hmem, -⟩ := hd
    simp at hmem
  | cons x xs ih =>
    by_cases hx : x ≥ limit
    · have hd2 : ∃ d ∈ xs, d < limit := by
        obtain ⟨d, hmem, hlt⟩ := hd
        rcases List.mem_cons.mp hmem with rfl | h
        · omega
        · exact ⟨d, h, hlt⟩
      obtain ⟨skipped, d, rest, h1, h2, h3, h4⟩ := ih hd2
      refine ⟨x :: skipped, d, rest, by rw [h1]; rfl, ?_, h3, ?_⟩
      · intro y hy
        rcases List.mem_cons.mp hy with rfl | hy
        · exact hx
        · exact h2 y hy
      · rw [rand_int_loop, if_pos hx, h4]
    · exact ⟨[], x, xs, rfl, by simp, by omega, by rw [rand_int_loop, if_neg hx]⟩

theorem limit_multiple (RAND_MAX n : Nat) :
    RAND_MAX - RAND_MAX % n = RAND_MAX / n * n := by
  have := Nat.div_add_mod RAND_MAX n
  rw [Nat.mul_comm] at this
  omega

theorem count_residue (n q r : Nat) (hr : r < n) :
    ((List.range (q * n)).filter (fun rnd => rnd % n = r)).length = q := by
  induction q with
  | zero => simp
  | succ q ih =>
    rw [Nat.succ_mul, List.range_add, List.filter_append, List.length_append, ih,
      List.filter_map, List.length_map]
    have hone : (List.filter ((fun rnd => decide (rnd % n = r)) ∘ fun x => q * n + x)
        (List.range n)).length = 1 := by
      rw [← List.countP_eq_length_filter]
      have hc : List.countP ((fun rnd => decide (rnd % n = r)) ∘ fun x => q * n + x)
          (List.range n) = List.countP (fun x => x == r) (List.range n) := by
        apply List.countP_congr
        intro x hx
        have hxn : x < n := List.mem_range.mp hx
        have e : (q * n + x) % n = x := by
          rw [Nat.add_comm, Nat.add_mul_mod_self_right, Nat.mod_eq_of_lt hxn]
        simp [e]
      rw [hc]
      have := List.count_eq_one_of_mem (List.nodup_range n) (List.mem_range.mpr hr)
      rw [List.count] at this
      convert this using 2
    rw [hone]

theorem average_time_example : average_time ([1, 2, 3, 4, 5] : List ℝ) = 3 := by
  unfold average_time
  rw [total_time_eq_sum]
  norm_num

/-! ## Termination of the population phase -/

theorem length_le_of_bounded (l : List Int) (hnd : l.Nodup)
    (hr : ∀ x ∈ l, 0 ≤ x ∧ x < 65536) : l.length ≤ 65536 := by
  have hsub : l.toFinset ⊆ Finset.Ico (0 : Int) 65536 := by
    intro x hx
    rw [List.mem_toFinset] at hx
    rw [Finset.mem_Ico]
    exact hr x hx
  have h1 := Finset.card_le_card hsub
  rw [List.toFinset_card_of_nodup hnd, Int.card_Ico] at h1
  simpa using h1

theorem populate_too_many (n : Int) (hn : 65536 < n) (draws : List Nat) :
    populate n draws = .error .no_draw := by
  unfold populate
  rcases populate_loop_result n draws 0 [] rfl (by omega) List.Pairwise.nil (by simp)
    with ⟨res, rest, used, -, h2, h3, h4, -⟩ | h
  · have := length_le_of_bounded res (sorted_nodup h3) h4
    omega
  · exact h

theorem populate_enough (n : Int) (hn : n ≤ 65536) :
    ∃ r, populate n (List.range n.toNat) = .ok r := by
  unfold populate
  apply populate_loop_total n _ 0 [] List.Pairwise.nil
  have hnd : ((List.range n.toNat).map (fun (d : Nat) => ((d % 65536 : Nat) : Int))).Nodup := by
    apply List.Nodup.map_on _ (List.nodup_range _)
    intro a ha b hb hab
    rw [List.mem_range] at ha hb
    have h1 : a % 65536 = a := Nat.mod_eq_of_lt (by omega)
    have h2 : b % 65536 = b := Nat.mod_eq_of_lt (by omega)
    simp only [h1, h2] at hab
    exact_mod_cast hab
  simp only [List.toFinset_nil, Finset.sdiff_empty, List.toFinset_card_of_nodup hnd,
    List.length_map, List.length_range]
  omega

theorem unit_fractions_sum :
    double_eq (double_add (double_add double_1_0 double_0_0) double_0_0) double_1_0 = true := by
  decide

/-! ## The timed window -/

theorem switch_parallel_calls (tag value : Int) (head : List Int) :
    (switch_parallel tag value head).1 = (switch_serial tag value head).1 ∧
    (switch_parallel tag value head).2.filter Event.is_call
      = (switch_serial tag value head).2 := by
  unfold switch_parallel switch_serial
  by_cases h1 : tag = 1
  · simp [h1, Event.is_call]
  · by_cases h2 : tag = 2
    · simp [h1, h2, Event.is_call]
    · by_cases h3 : tag = 3
      · simp [h1, h2, h3, Event.is_call]
      · simp [h1, h2, h3]

theorem operations_loop_cons (body : Int → Int → List Int → List Int × List Event)
    (operations_array : List Int) (count : Nat) (i : Int) (head : List Int) (rnd : Nat)
    (rest : List Nat) :
    operations_loop body operations_array (count + 1) i head (rnd :: rest) =
      if 0 ≤ i then
        match read operations_array i.toNat with
        | .error e => .error e
        | .ok tag =>
          match operations_loop body operations_array count (i + 1)
              (body tag ((rnd % 65536 : Nat) : Int) head).1 rest with
          | .error e => .error e
          | .ok out =>
            .ok ⟨out.head, out.draws,
              (body tag ((rnd % 65536 : Nat) : Int) head).2 ++ out.events⟩
      else .error .out_of_bounds := by
  rw [operations_loop]
  by_cases hi : 0 ≤ i
  · simp only [if_pos hi, bind, Except.bind]
    cases read operations_array i.toNat with
    | error e => rfl
    | ok tag =>
      simp only []
      cases operations_loop body operations_array count (i + 1)
          (body tag ((rnd % 65536 : Nat) : Int) head).1 rest with
      | error e => rfl
      | ok out => rfl
  · simp only [if_neg hi]

theorem operations_loop_calls (operations_array : List Int) (count : Nat) (i : Int)
    (head : List Int) (draws : List Nat) :
    (operations_loop switch_parallel operations_array count i head draws).map Outcome.calls
      = operations_loop switch_serial operations_array count i head draws := by
  induction count generalizing i head draws with
  | zero => simp [operations_loop, Except.map, Outcome.calls]
  | succ count ih =>
    cases draws with
    | nil => simp [operations_loop, Except.map]
    | cons rnd rest =>
      rw [operations_loop_cons, operations_loop_cons]
      by_cases hi : 0 ≤ i
      · simp only [if_pos hi]
        cases read operations_array i.toNat with
        | error e => rfl
        | ok tag =>
          simp only []
          obtain ⟨e1, e2⟩ := switch_parallel_calls tag ((rnd % 65536 : Nat) : Int) head
          rw [← ih (i + 1) (switch_serial tag ((rnd % 65536 : Nat) : Int) head).1 rest, e1]
          cases operations_loop switch_parallel operations_array count (i + 1)
              (switch_serial tag ((rnd % 65536 : Nat) : Int) head).1 rest with
          | error e => rfl
          | ok out =>
            simp only [Except.map, Outcome.calls, List.filter_append, e2]
      · simp only [if_neg hi]
        rfl

theorem thread_operation_single (m : Int) (operations_array head : List Int)
    (draws : List Nat) :
    thread_operation m 1 0 operations_array head draws
      = operations_loop switch_parallel operations_array m.toNat 0 head draws := by
  unfold thread_operation my_last_index my_start_index local_m
  simp [Int.tdiv_one]

theorem threads_in_turn_one (m thread_count rank : Int) (operations_array head : List Int)
    (draws : List Nat) :
    threads_in_turn m thread_count operations_array 1 rank head draws
      = thread_operation m thread_count rank operations_array head draws := by
  rw [threads_in_turn]
  cases thread_operation m thread_count rank operations_array head draws with
  | error e => rfl
  | ok out1 => simp [threads_in_turn, bind, Except.bind]

theorem run_experiment_single_thread (RAND_MAX : Nat) (n m : Int)
    (m_member m_insert m_delete : Double) (operations_array : List Int) (draws : List Nat) :
    (run_experiment_parallel RAND_MAX 1 n m m_member m_insert m_delete operations_array []
        draws).map (fun run => (run.operations_array, run.window.calls))
      = run_experiment_serial RAND_MAX n m m_member m_insert m_delete operations_array
          draws := by
  unfold run_experiment_parallel run_experiment_serial serial_operations
  cases generate_operations RAND_MAX m m_member m_insert m_delete operations_array draws with
  | error e => rfl
  | ok p =>
    obtain ⟨array, draws1⟩ := p
    simp only [bind, Except.bind]
    cases populate_loop n 0 [] draws1 with
    | error e => rfl
    | ok q =>
      obtain ⟨head, draws2⟩ := q
      simp only []
      have e1 : (1 : Int).toNat = 1 := rfl
      rw [e1, threads_in_turn_one, thread_operation_single,
        ← operations_loop_calls array m.toNat 0 head draws2]
      cases operations_loop switch_parallel array m.toNat 0 head draws2 with
      | error e => rfl
      | ok out => rfl

theorem operations_loop_draws (body : Int → Int → List Int → List Int × List Event)
    (operations_array : List Int) (count : Nat) (i : Int) (head : List Int)
    (draws : List Nat) (out : Outcome)
    (h : operations_loop body operations_array count i head draws = .ok out) :
    count ≤ draws.length ∧ out.draws = draws.drop count := by
  induction count generalizing i head draws out with
  | zero =>
    simp only [operations_loop, Except.ok.injEq] at h
    subst h
    simp
  | succ count ih =>
    cases draws with
    | nil => simp [operations_loop] at h
    | cons rnd rest =>
      rw [operations_loop_cons] at h
      generalize ((rnd % 65536 : Nat) : Int) = value at h
      by_cases hi : 0 ≤ i
      · simp only [if_pos hi] at h
        cases hr : read operations_array i.toNat with
        | error e => simp [hr] at h
        | ok tag =>
          simp only [hr] at h
          cases hl : operations_loop body operations_array count (i + 1)
              (body tag value head).1 rest with
          | error e => simp [hl] at h
          | ok out1 =>
            simp only [hl, Except.ok.injEq] at h
            obtain ⟨h1, h2⟩ := ih _ _ _ _ hl
            subst h
            simp only [List.length_cons, List.drop_succ_cons]
            exact ⟨by omega, h2⟩
      · simp [if_neg hi] at h

theorem run_experiment_parallel_head (RAND_MAX : Nat) (thread_count n m : Int)
    (m_member m_insert m_delete : Double) (operations_array head : List Int)
    (draws : List Nat) (run : ParallelRun)
    (h : run_experiment_parallel RAND_MAX thread_count n m m_member m_insert m_delete
      operations_array head draws = .ok run) : run.head = [] := by
  unfold run_experiment_parallel at h
  cases hg : generate_operations RAND_MAX m m_member m_insert m_delete operations_array
      draws with
  | error e => simp [hg, bind, Except.bind] at h
  | ok p =>
    obtain ⟨array, draws1⟩ := p
    simp only [hg, bind, Except.bind] at h
    cases hpop : populate_loop n 0 head draws1 with
    | error e => simp [hpop] at h
    | ok q =>
      obtain ⟨head1, draws2⟩ := q
      simp only [hpop] at h
      cases ht : threads_in_turn m thread_count array thread_count.toNat 0 head1 draws2 with
      | error e => simp [ht] at h
      | ok out =>
        simp only [ht, Except.ok.injEq] at h
        rw [← h]
        rfl

theorem heads_at_start_empty (RAND_MAX : Nat) (thread_count n m : Int)
    (m_member m_insert m_delete : Double) (count : Nat) (operations_array : List Int)
    (draws : List Nat) (heads : List (List Int))
    (h : heads_at_start RAND_MAX thread_count n m m_member m_insert m_delete count
      operations_array [] draws = .ok heads) :
    heads.length = count ∧ ∀ l ∈ heads, l = [] := by
  induction count generalizing operations_array draws heads with
  | zero =>
    simp only [heads_at_start, Except.ok.injEq] at h
    subst h
    simp
  | succ count ih =>
    rw [heads_at_start] at h
    cases hr : run_experiment_parallel RAND_MAX thread_count n m m_member m_insert m_delete
        operations_array [] draws with
    | error e => simp [hr, bind, Except.bind] at h
    | ok run =>
      simp only [hr, bind, Except.bind] at h
      have hrun := run_experiment_parallel_head _ _ _ _ _ _ _ _ _ _ _ hr
      rw [hrun] at h
      cases hl : heads_at_start RAND_MAX thread_count n m m_member m_insert m_delete count
          run.operations_array [] run.window.draws with
      | error e => simp [hl] at h
      | ok later =>
        simp only [hl, Except.ok.injEq] at h
        obtain ⟨h1, h2⟩ := ih _ _ _ hl
        subst h
        refine ⟨by simp [h1], fun l hl2 => ?_⟩
        rcases List.mem_cons.mp hl2 with rfl | hl2
        · rfl
        · exact h2 l hl2

/-! ## The lock discipline of `thread_operation` -/

theorem switch_parallel_tagged (tag value : Int) (head : List Int)
    (h : tag = 1 ∨ tag = 2 ∨ tag = 3) :
    ∃ call, call.is_call = true ∧
      (switch_parallel tag value head).2 = [Event.rdlock, call, Event.unlock] := by
  unfold switch_parallel
  rcases h with rfl | rfl | rfl
  · exact ⟨Event.member value (member value head), rfl, by simp⟩
  · exact ⟨Event.insert value (insert value head).1, rfl, by simp⟩
  · exact ⟨Event.delete value (delete value head).1, rfl, by simp⟩

theorem switch_parallel_default (tag value : Int) (head : List Int)
    (h : ¬ (tag = 1 ∨ tag = 2 ∨ tag = 3)) :
    switch_parallel tag value head = (head, []) := by
  unfold switch_parallel
  simp only [not_or] at h
  rw [if_neg h.1, if_neg h.2.1, if_neg h.2.2]

theorem switch_parallel_bracketed (tag value : Int) (head : List Int) :
    ReadBracketed (switch_parallel tag value head).2 := by
  by_cases h : tag = 1 ∨ tag = 2 ∨ tag = 3
  · exact Or.inr (switch_parallel_tagged tag value head h)
  · rw [switch_parallel_default tag value head h]
    exact Or.inl rfl

theorem operations_loop_blocks (operations_array : List Int) (count : Nat) (i : Int)
    (head : List Int) (draws : List Nat) (out : Outcome)
    (h : operations_loop switch_parallel operations_array count i head draws = .ok out) :
    ∃ blocks : List (List Event), out.events = blocks.flatten ∧ blocks.length = count ∧
      ∀ b ∈ blocks, ReadBracketed b := by
  induction count generalizing i head draws out with
  | zero =>
    simp only [operations_loop, Except.ok.injEq] at h
    subst h
    exact ⟨[], rfl, rfl, by simp⟩
  | succ count ih =>
    cases draws with
    | nil => simp [operations_loop] at h
    | cons rnd rest =>
      rw [operations_loop_cons] at h
      generalize ((rnd % 65536 : Nat) : Int) = value at h
      by_cases hi : 0 ≤ i
      · simp only [if_pos hi] at h
        cases hr : read operations_array i.toNat with
        | error e => simp [hr] at h
        | ok tag =>
          simp only [hr] at h
          cases hl : operations_loop switch_parallel operations_array count (i + 1)
              (switch_parallel tag value head).1 rest with
          | error e => simp [hl] at h
          | ok out1 =>
            simp only [hl, Except.ok.injEq] at h
            obtain ⟨blocks, h1, h2, h3⟩ := ih _ _ _ _ hl
            subst h
            refine ⟨(switch_parallel tag value head).2 :: blocks, ?_, by simp [h2], ?_⟩
            · simp only [List.flatten_cons, h1]
            · intro b hb
              rcases List.mem_cons.mp hb with rfl | hb
              · exact switch_parallel_bracketed tag value head
              · exact h3 b hb
      · simp [if_neg hi] at h

theorem no_wrlock_of_blocks (blocks : List (List Event))
    (h : ∀ b ∈ blocks, ReadBracketed b) : Event.wrlock ∉ blocks.flatten := by
  intro hmem
  rw [List.mem_flatten] at hmem
  obtain ⟨b, hb, hw⟩ := hmem
  rcases h b hb with rfl | ⟨call, hc, rfl⟩
  · simp at hw
  · simp only [List.mem_cons, List.mem_singleton, reduceCtorEq, false_or, or_false,
      List.not_mem_nil] at hw
    rw [← hw] at hc
    cases hc

theorem lock_never_waits (events : List Event) (s : RwLock) (hw : Event.wrlock ∉ events)
    (hs : s.writer = false) :
    ∃ s1, RwLock.run s events = some s1 ∧ s1.writer = false := by
  induction events generalizing s with
  | nil => exact ⟨s, rfl, hs⟩
  | cons e es ih =>
    have hes : Event.wrlock ∉ es := fun h => hw (List.mem_cons_of_mem _ h)
    have he : e ≠ Event.wrlock := fun h => hw (h ▸ List.mem_cons_self _ _)
    have hstep : ∃ s1, s.step e = some s1 ∧ s1.writer = false := by
      cases e with
      | rdlock => exact ⟨⟨s.readers + 1, false⟩, by simp [RwLock.step, hs], rfl⟩
      | wrlock => exact absurd rfl he
      | unlock => exact ⟨⟨s.readers - 1, false⟩, by simp [RwLock.step, hs], rfl⟩
      | member v r => exact ⟨s, rfl, hs⟩
      | insert v r => exact ⟨s, rfl, hs⟩
      | delete v r => exact ⟨s, rfl, hs⟩
    obtain ⟨s1, h1, h2⟩ := hstep
    obtain ⟨s2, h3, h4⟩ := ih s1 hes h2
    exact ⟨s2, by rw [RwLock.run, h1]; exact h3, h4⟩

/-! ## Runs that leave the buffer -/

theorem fill_loop_overflow (tag : Int) (count i : Nat) (array : List Int)
    (h1 : i ≤ array.length) (h2 : array.length < i + count) :
    fill_loop tag count (i : Int) array = .error .out_of_bounds := by
  induction count generalizing i array with
  | zero => omega
  | succ count ih =>
    rw [fill_loop, if_pos (Int.ofNat_nonneg i)]
    simp only [Int.toNat_ofNat, write, bind, Except.bind]
    by_cases hi : i < array.length
    · rw [if_pos hi]
      have hc : ((i : Int) + 1) = ((i + 1 : Nat) : Int) := by push_cast; rfl
      simp only []
      rw [hc]
      exact ih (i + 1) (array.set i tag) (by simp only [List.length_set]; omega)
        (by simp only [List.length_set]; omega)
    · rw [if_neg hi]

theorem generate_operations_overflow (RAND_MAX : Nat) (m : Int)
    (m_member m_insert m_delete : Double) (operations_array : List Int) (draws : List Nat)
    (c1 : Nat) (c2 c3 : Int)
    (h1 : truncate (int_times m m_member) = (c1 : Int)) (hc : c1 ≤ 2147483647)
    (h2 : to_int (truncate (int_times m m_insert)) = .ok c2)
    (h3 : to_int (truncate (int_times m m_delete)) = .ok c3)
    (hlen : operations_array.length < c1) :
    generate_operations RAND_MAX m m_member m_insert m_delete operations_array draws
      = .error .out_of_bounds := by
  unfold generate_operations
  rw [h1, h2, h3, to_int_small c1 hc]
  simp only [bind, Except.bind]
  unfold layout_operations fill
  have e : ((c1 : Int) - 0).toNat = c1 := by omega
  have e0 : (0 : Int) = ((0 : Nat) : Int) := rfl
  rw [e, e0, fill_loop_overflow 1 c1 0 operations_array (by omega) (by omega)]
  rfl

/-! ## Only the first `m` slots of the buffer matter -/

theorem generate_operations_append (RAND_MAX : Nat) (m : Int)
    (m_member m_insert m_delete : Double) (front back : List Int) (draws : List Nat)
    (c1 c2 c3 : Nat)
    (h1 : truncate (int_times m m_member) = (c1 : Int))
    (h2 : truncate (int_times m m_insert) = (c2 : Int))
    (h3 : truncate (int_times m m_delete) = (c3 : Int))
    (hk : c1 + c2 + c3 ≤ front.length) (hm : m.toNat ≤ front.length)
    (hs : c1 + c2 + c3 ≤ 2147483647) :
    generate_operations RAND_MAX m m_member m_insert m_delete (front ++ back) draws
      = (shuffle_loop RAND_MAX (m - 1).toNat
          (List.replicate c1 1 ++ List.replicate c2 2 ++ List.replicate c3 3
            ++ front.drop (c1 + c2 + c3)) draws).map
          (fun r => (r.1 ++ back, r.2)) ∧
    generate_operations RAND_MAX m m_member m_insert m_delete front draws
      = shuffle_loop RAND_MAX (m - 1).toNat
          (List.replicate c1 1 ++ List.replicate c2 2 ++ List.replicate c3 3
            ++ front.drop (c1 + c2 + c3)) draws := by
  have hlen : (List.replicate c1 (1 : Int) ++ List.replicate c2 2 ++ List.replicate c3 3
      ++ front.drop (c1 + c2 + c3)).length = front.length := by
    simp only [List.length_append, List.length_replicate, List.length_drop]
    omega
  have hi : (m - 1).toNat = 0 ∨ (m - 1).toNat
      < (List.replicate c1 (1 : Int) ++ List.replicate c2 2 ++ List.replicate c3 3
          ++ front.drop (c1 + c2 + c3)).length := by
    rw [hlen]
    omega
  constructor
  · unfold generate_operations
    rw [h1, h2, h3]
    simp only [bind, Except.bind, to_int_small c1 (by omega), to_int_small c2 (by omega),
      to_int_small c3 (by omega),
      layout_operations_eq c1 c2 c3 (front ++ back)
        (by rw [List.length_append]; omega) hs]
    unfold shuffle
    rw [List.drop_append_of_le_length hk, ← List.append_assoc]
    exact shuffle_loop_append RAND_MAX _ _ back draws hi
  · unfold generate_operations
    rw [h1, h2, h3]
    simp only [bind, Except.bind, to_int_small c1 (by omega), to_int_small c2 (by omega),
      to_int_small c3 (by omega), layout_operations_eq c1 c2 c3 front hk hs]
    rfl

theorem bit_length_aux_zero (fuel : Nat) : bit_length_aux fuel 0 = 0 := by
  cases fuel with
  | zero => rfl
  | succ fuel => simp [bit_length_aux]

theorem bit_length_aux_spec (fuel a : Nat) (hf : a ≤ fuel) (ha : 0 < a) :
    2 ^ (bit_length_aux fuel a - 1) ≤ a ∧ a < 2 ^ bit_length_aux fuel a := by
  induction fuel generalizing a with
  | zero => omega
  | succ fuel ih =>
    rw [bit_length_aux, if_neg (by omega)]
    by_cases h2 : a / 2 = 0
    · have ha1 : a = 1 := by omega
      rw [h2, bit_length_aux_zero]
      subst ha1
      simp
    · obtain ⟨h3, h4⟩ := ih (a / 2) (by omega) (by omega)
      have hb : 1 ≤ bit_length_aux fuel (a / 2) := by
        rcases Nat.eq_zero_or_pos (bit_length_aux fuel (a / 2)) with h | h
        · rw [h] at h4
          simp at h4
          omega
        · exact h
      have e1 : 2 ^ bit_length_aux fuel (a / 2)
          = 2 * 2 ^ (bit_length_aux fuel (a / 2) - 1) := by
        rw [← pow_succ']
        congr 1
        omega
      rw [Nat.add_sub_cancel, pow_succ]
      omega

theorem bit_length_spec (a : Nat) (ha : 0 < a) :
    2 ^ (bit_length a - 1) ≤ a ∧ a < 2 ^ bit_length a :=
  bit_length_aux_spec a a (Nat.le_refl a) ha

theorem round_nat_bounds (a : Nat) (h : 2 ^ 53 ≤ a) :
    (if a % 2 ^ (bit_length a - 53) > 2 ^ (bit_length a - 53 - 1)
          ∨ (a % 2 ^ (bit_length a - 53) = 2 ^ (bit_length a - 53 - 1)
            ∧ a / 2 ^ (bit_length a - 53) % 2 = 1)
        then a / 2 ^ (bit_length a - 53) + 1 else a / 2 ^ (bit_length a - 53))
          * 2 ^ (bit_length a - 53) * 2 ^ 53 ≤ a * (2 ^ 53 + 1) ∧
    a * (2 ^ 53 - 1)
      ≤ (if a % 2 ^ (bit_length a - 53) > 2 ^ (bit_length a - 53 - 1)
          ∨ (a % 2 ^ (bit_length a - 53) = 2 ^ (bit_length a - 53 - 1)
            ∧ a / 2 ^ (bit_length a - 53) % 2 = 1)
        then a / 2 ^ (bit_length a - 53) + 1 else a / 2 ^ (bit_length a - 53))
          * 2 ^ (bit_length a - 53) * 2 ^ 53 := by
  have hpos : 0 < a := lt_of_lt_of_le (by positivity) h
  obtain ⟨hlo, hhi⟩ := bit_length_spec a hpos
  have hbl : 54 ≤ bit_length a := by
    by_contra hc
    have : 2 ^ bit_length a ≤ 2 ^ 53 := Nat.pow_le_pow_right (by decide) (by omega)
    omega
  obtain ⟨k, hk⟩ : ∃ k, bit_length a - 53 = k + 1 := ⟨bit_length a - 54, by omega⟩
  rw [hk, Nat.add_sub_cancel]
  have hhalf : 2 ^ k * 2 ^ 53 ≤ a := by
    rw [← pow_add]
    have : k + 53 = bit_length a - 1 := by omega
    rw [this]
    exact hlo
  have hdm := Nat.div_add_mod a (2 ^ (k + 1))
  have hr := Nat.mod_lt a (show 0 < 2 ^ (k + 1) by positivity)
  have h2k : 2 ^ (k + 1) = 2 * 2 ^ k := by rw [pow_succ]; omega
  generalize a / 2 ^ (k + 1) = q at hdm ⊢
  generalize a % 2 ^ (k + 1) = r at hdm hr ⊢
  rw [h2k] at hdm hr ⊢
  generalize 2 ^ k = half at *
  have hmul : 2 * half * q = q * (2 * half) := Nat.mul_comm _ _
  split
  · rename_i hc
    have hrh : half ≤ r := by
      rcases hc with hc | hc
      · omega
      · omega
    have e : (q + 1) * (2 * half) = q * (2 * half) + 2 * half := by ring
    rw [e]
    generalize q * (2 * half) = X at *
    omega
  · rename_i hc
    have hrh : r ≤ half := by
      by_contra hgt
      exact hc (Or.inl (by omega))
    generalize q * (2 * half) = X at *
    omega

theorem round_val_bounds (a : Nat) (e : Int) :
    0 ≤ (round_nearest_even (a : Int) e).man ∧
    (round_nearest_even (a : Int) e).val * 2 ^ 53 ≤ (a : ℚ) * 2 ^ e * (2 ^ 53 + 1) ∧
    (a : ℚ) * 2 ^ e * (2 ^ 53 - 1) ≤ (round_nearest_even (a : Int) e).val * 2 ^ 53 := by
  have he : (0 : ℚ) < 2 ^ e := by positivity
  have ha : (0 : ℚ) ≤ (a : ℚ) := Nat.cast_nonneg a
  unfold round_nearest_even
  simp only [Int.natAbs_ofNat]
  by_cases h : a < 2 ^ 53
  · rw [if_pos h]
    simp only [Double.val, Int.cast_natCast]
    refine ⟨Int.ofNat_nonneg a, ?_, ?_⟩
    · have : (0 : ℚ) ≤ (a : ℚ) * 2 ^ e := by positivity
      nlinarith
    · have : (0 : ℚ) ≤ (a : ℚ) * 2 ^ e := by positivity
      nlinarith
  · rw [if_neg h]
    have hpos : (0 : Int) < (a : Int) := by
      have : 0 < 2 ^ 53 := by positivity
      omega
    obtain ⟨hb1, hb2⟩ := round_nat_bounds a (by omega)
    simp only [Double.val, Int.sign_eq_one_of_pos hpos, one_mul]
    generalize (if a % 2 ^ (bit_length a - 53) > 2 ^ (bit_length a - 53 - 1)
          ∨ (a % 2 ^ (bit_length a - 53) = 2 ^ (bit_length a - 53 - 1)
            ∧ a / 2 ^ (bit_length a - 53) % 2 = 1)
        then a / 2 ^ (bit_length a - 53) + 1 else a / 2 ^ (bit_length a - 53)) = q1
      at hb1 hb2 ⊢
    generalize bit_length a - 53 = k at hb1 hb2 ⊢
    have c1 : ((q1 * 2 ^ k * 2 ^ 53 : Nat) : ℚ) ≤ ((a * (2 ^ 53 + 1) : Nat) : ℚ) :=
      Nat.cast_le.mpr hb1
    have c2 : ((a * (2 ^ 53 - 1) : Nat) : ℚ) ≤ ((q1 * 2 ^ k * 2 ^ 53 : Nat) : ℚ) :=
      Nat.cast_le.mpr hb2
    push_cast at c1 c2
    have hz : (2 : ℚ) ^ (e + (k : Int)) = 2 ^ e * 2 ^ k := by
      rw [zpow_add₀ (by norm_num), zpow_natCast]
    refine ⟨Int.ofNat_nonneg q1, ?_, ?_⟩
    · rw [hz]
      have : (q1 : ℚ) * (2 ^ e * 2 ^ k) * 2 ^ 53 = (q1 * 2 ^ k * 2 ^ 53) * 2 ^ e := by ring
      push_cast
      rw [this]
      have : (a : ℚ) * 2 ^ e * (2 ^ 53 + 1) = (a * (2 ^ 53 + 1)) * 2 ^ e := by ring
      rw [this]
      have h3 := mul_le_mul_of_nonneg_right c1 he.le
      norm_num at h3 ⊢
      linarith
    · rw [hz]
      have : (q1 : ℚ) * (2 ^ e * 2 ^ k) * 2 ^ 53 = (q1 * 2 ^ k * 2 ^ 53) * 2 ^ e := by ring
      push_cast
      rw [this]
      have : (a : ℚ) * 2 ^ e * (2 ^ 53 - 1) = (a * (2 ^ 53 - 1)) * 2 ^ e := by ring
      rw [this]
      have h3 := mul_le_mul_of_nonneg_right c2 he.le
      norm_num at h3 ⊢
      linarith

theorem zpow_split (x e : Int) (h : e ≤ x) :
    (2 : ℚ) ^ (x - e).toNat * 2 ^ e = 2 ^ x := by
  have e1 : ((x - e).toNat : Int) = x - e := Int.toNat_of_nonneg (by omega)
  rw [← zpow_natCast, e1, ← zpow_add₀ (by norm_num)]
  congr 1
  omega

theorem truncate_le_val (d : Double) (h : 0 ≤ d.man) :
    0 ≤ truncate d ∧ ((truncate d : Int) : ℚ) ≤ d.val := by
  unfold truncate Double.val
  by_cases he : 0 ≤ d.exp
  · rw [if_pos he]
    refine ⟨by positivity, ?_⟩
    push_cast
    have e1 : ((d.exp.toNat : Nat) : Int) = d.exp := Int.toNat_of_nonneg he
    rw [← zpow_natCast, e1]
  · rw [if_neg he]
    have hD : (0 : Int) < 2 ^ (-d.exp).toNat := by positivity
    rw [Int.tdiv_eq_ediv h hD.le]
    refine ⟨Int.ediv_nonneg h hD.le, ?_⟩
    have h1 : d.man / 2 ^ (-d.exp).toNat * 2 ^ (-d.exp).toNat ≤ d.man :=
      Int.ediv_mul_le _ (ne_of_gt hD)
    have h2 : ((d.man / 2 ^ (-d.exp).toNat * 2 ^ (-d.exp).toNat : Int) : ℚ) ≤ (d.man : ℚ) :=
      Int.cast_le.mpr h1
    push_cast at h2
    have h3 : (2 : ℚ) ^ (-d.exp).toNat * 2 ^ d.exp = 1 := by
      have := zpow_split 0 d.exp (by omega)
      simpa using this
    have hpos : (0 : ℚ) < 2 ^ d.exp := by positivity
    have h4 := mul_le_mul_of_nonneg_right h2 hpos.le
    calc ((d.man / 2 ^ (-d.exp).toNat : Int) : ℚ)
        = ((d.man / 2 ^ (-d.exp).toNat : Int) : ℚ) * ((2 : ℚ) ^ (-d.exp).toNat * 2 ^ d.exp) := by
          rw [h3, mul_one]
      _ = ((d.man / 2 ^ (-d.exp).toNat : Int) : ℚ) * 2 ^ (-d.exp).toNat * 2 ^ d.exp := by ring
      _ ≤ (d.man : ℚ) * 2 ^ d.exp := h4

theorem int_times_bounds (m : Int) (f : Double) (hm : 0 ≤ m) (hf : 0 ≤ f.man) :
    0 ≤ (int_times m f).man ∧
    (int_times m f).val * 2 ^ 53 ≤ (m : ℚ) * f.val * (2 ^ 53 + 1) := by
  unfold int_times
  obtain ⟨a, ha⟩ := Int.eq_ofNat_of_zero_le (Int.mul_nonneg hm hf)
  rw [ha]
  obtain ⟨h1, h2, -⟩ := round_val_bounds a f.exp
  refine ⟨h1, ?_⟩
  have e : (a : ℚ) = (m : ℚ) * (f.man : ℚ) := by
    have : ((m * f.man : Int) : ℚ) = ((a : Int) : ℚ) := by rw [ha]
    push_cast at this
    exact this.symm
  rw [e] at h2
  unfold Double.val
  calc (round_nearest_even (a : Int) f.exp).val * 2 ^ 53
      ≤ (m : ℚ) * (f.man : ℚ) * 2 ^ f.exp * (2 ^ 53 + 1) := h2
    _ = (m : ℚ) * ((f.man : ℚ) * 2 ^ f.exp) * (2 ^ 53 + 1) := by ring

theorem double_add_bounds (a b : Double) (ha : 0 ≤ a.man) (hb : 0 ≤ b.man) :
    0 ≤ (double_add a b).man ∧
    (a.val + b.val) * (2 ^ 53 - 1) ≤ (double_add a b).val * 2 ^ 53 := by
  unfold double_add
  simp only []
  have hS : 0 ≤ a.man * 2 ^ (a.exp - min a.exp b.exp).toNat
      + b.man * 2 ^ (b.exp - min a.exp b.exp).toNat := by positivity
  obtain ⟨S, hSe⟩ := Int.eq_ofNat_of_zero_le hS
  rw [hSe]
  obtain ⟨h1, -, h3⟩ := round_val_bounds S (min a.exp b.exp)
  refine ⟨h1, ?_⟩
  have e : (S : ℚ) * 2 ^ (min a.exp b.exp) = a.val + b.val := by
    have : ((a.man * 2 ^ (a.exp - min a.exp b.exp).toNat
        + b.man * 2 ^ (b.exp - min a.exp b.exp).toNat : Int) : ℚ) = ((S : Int) : ℚ) := by
      rw [hSe]
    push_cast at this
    rw [← this]
    unfold Double.val
    rw [add_mul, mul_assoc, mul_assoc, zpow_split a.exp _ (min_le_left _ _),
      zpow_split b.exp _ (min_le_right _ _)]
  rw [e] at h3
  exact h3

theorem double_eq_one (x : Double) (h : double_eq x double_1_0 = true) : x.val = 1 := by
  unfold double_eq at h
  simp only [decide_eq_true_eq, double_1_0] at h
  have h2 : ((x.man * 2 ^ (x.exp - min x.exp 0).toNat : Int) : ℚ)
      = ((1 * 2 ^ ((0 : Int) - min x.exp 0).toNat : Int) : ℚ) := by rw [h]
  push_cast at h2
  unfold Double.val
  have e1 := zpow_split x.exp (min x.exp 0) (min_le_left _ _)
  have e2 := zpow_split 0 (min x.exp 0) (min_le_right _ _)
  calc (x.man : ℚ) * 2 ^ x.exp
      = (x.man : ℚ) * (2 ^ (x.exp - min x.exp 0).toNat * 2 ^ (min x.exp 0)) := by rw [e1]
    _ = ((x.man : ℚ) * 2 ^ (x.exp - min x.exp 0).toNat) * 2 ^ (min x.exp 0) := by ring
    _ = (1 * 2 ^ ((0 : Int) - min x.exp 0).toNat) * 2 ^ (min x.exp 0) := by rw [h2]
    _ = 2 ^ ((0 : Int) - min x.exp 0).toNat * 2 ^ (min x.exp 0) := by ring
    _ = 1 := by rw [e2]; simp

theorem counts_within_m (m : Int) (f1 f2 f3 : Double) (hm : 1 ≤ m ∧ m ≤ 10000)
    (h1 : 0 ≤ f1.man) (h2 : 0 ≤ f2.man) (h3 : 0 ≤ f3.man)
    (hsum : double_eq (double_add (double_add f1 f2) f3) double_1_0 = true) :
    0 ≤ truncate (int_times m f1) ∧ 0 ≤ truncate (int_times m f2) ∧
    0 ≤ truncate (int_times m f3) ∧
    truncate (int_times m f1) + truncate (int_times m f2) + truncate (int_times m f3) ≤ m := by
  have hm0 : 0 ≤ m := by omega
  obtain ⟨p1, q1⟩ := int_times_bounds m f1 hm0 h1
  obtain ⟨p2, q2⟩ := int_times_bounds m f2 hm0 h2
  obtain ⟨p3, q3⟩ := int_times_bounds m f3 hm0 h3
  obtain ⟨t1, u1⟩ := truncate_le_val _ p1
  obtain ⟨t2, u2⟩ := truncate_le_val _ p2
  obtain ⟨t3, u3⟩ := truncate_le_val _ p3
  obtain ⟨s2, A⟩ := double_add_bounds f1 f2 h1 h2
  obtain ⟨-, B⟩ := double_add_bounds (double_add f1 f2) f3 s2 h3
  rw [double_eq_one _ hsum] at B
  refine ⟨t1, t2, t3, ?_⟩
  have hv1 : (0 : ℚ) ≤ f1.val := by unfold Double.val; positivity
  have hv2 : (0 : ℚ) ≤ f2.val := by unfold Double.val; positivity
  have hv3 : (0 : ℚ) ≤ f3.val := by unfold Double.val; positivity
  have hmq : (0 : ℚ) ≤ (m : ℚ) := by exact_mod_cast hm0
  obtain ⟨P, hP⟩ : ∃ P : ℚ, P = 2 ^ 53 := ⟨_, rfl⟩
  rw [← hP] at q1 q2 q3 A B
  have hP1 : (1 : ℚ) ≤ P - 1 := by rw [hP]; norm_num
  have hP0 : (0 : ℚ) ≤ P := by linarith
  generalize (int_times m f1).val = pv1 at q1 u1
  generalize (int_times m f2).val = pv2 at q2 u2
  generalize (int_times m f3).val = pv3 at q3 u3
  generalize (double_add f1 f2).val = sv at A B
  generalize f1.val = v1 at *
  generalize f2.val = v2 at *
  generalize f3.val = v3 at *
  generalize truncate (int_times m f1) = T1 at u1 ⊢
  generalize truncate (int_times m f2) = T2 at u2 ⊢
  generalize truncate (int_times m f3) = T3 at u3 ⊢
  have S1 : (v1 + v2 + v3) * (P - 1) ^ 2 ≤ P ^ 2 := by
    have a1 := mul_le_mul_of_nonneg_right A (show (0 : ℚ) ≤ P - 1 by linarith)
    have a2 := mul_le_mul_of_nonneg_left B hP0
    have a3 := mul_nonneg hv3 (show (0 : ℚ) ≤ P - 1 by linarith)
    nlinarith [a1, a2, a3]
  have S2 : ((T1 : ℚ) + (T2 : ℚ) + (T3 : ℚ)) * P ≤ (m : ℚ) * (P + 1) * (v1 + v2 + v3) := by
    have b1 := mul_le_mul_of_nonneg_right u1 hP0
    have b2 := mul_le_mul_of_nonneg_right u2 hP0
    have b3 := mul_le_mul_of_nonneg_right u3 hP0
    linarith
  have S3 : ((T1 : ℚ) + (T2 : ℚ) + (T3 : ℚ)) * (P * (P - 1) ^ 2)
      ≤ (m : ℚ) * ((P + 1) * P ^ 2) := by
    have c1 := mul_le_mul_of_nonneg_right S2 (sq_nonneg (P - 1))
    have c2 := mul_le_mul_of_nonneg_left S1
      (show (0 : ℚ) ≤ (m : ℚ) * (P + 1) by positivity)
    nlinarith [c1, c2]
  rw [hP] at S3
  have S4 : ((T1 + T2 + T3 : Int) : ℚ) * (((2 ^ 53 * (2 ^ 53 - 1) ^ 2 : Int)) : ℚ)
      ≤ ((m * ((2 ^ 53 + 1) * (2 ^ 53) ^ 2) : Int) : ℚ) := by
    push_cast
    norm_num at S3 ⊢
    exact S3
  have S5 : (T1 + T2 + T3) * (2 ^ 53 * (2 ^ 53 - 1) ^ 2)
      ≤ m * ((2 ^ 53 + 1) * (2 ^ 53) ^ 2) := by
    exact_mod_cast S4
  omega

theorem initialise_serial_accepts (argc sample_size n m : Int)
    (m_member m_insert m_delete : Double)
    (h : initialise_serial argc sample_size n m m_member m_insert m_delete = true) :
    argc = 7 ∧ 0 < sample_size ∧ 0 < n ∧ 0 < m ∧
    double_eq (double_add (double_add m_member m_insert) m_delete) double_1_0 = true := by
  unfold initialise_serial at h
  by_cases h1 : argc ≠ 7
  · simp [h1] at h
  · rw [if_neg h1] at h
    by_cases h2 : sample_size ≤ 0 ∨ n ≤ 0 ∨ m ≤ 0
        ∨ double_eq (double_add (double_add m_member m_insert) m_delete) double_1_0 = false
    · simp [h2] at h
    · simp only [not_or, not_le, Bool.not_eq_false] at h2
      exact ⟨not_not.mp h1, h2.1, h2.2.1, h2.2.2.1, h2.2.2.2⟩

theorem initialise_parallel_accepts (argc thread_count sample_size n m : Int)
    (m_member m_insert m_delete : Double)
    (h : initialise_parallel argc thread_count sample_size n m m_member m_insert m_delete
      = true) :
    argc = 8 ∧ (0 < thread_count ∧ thread_count ≤ 1024) ∧ 0 < sample_size ∧ 0 < n ∧ 0 < m ∧
    double_eq (double_add (double_add m_member m_insert) m_delete) double_1_0 = true := by
  unfold initialise_parallel MAX_THREADS at h
  by_cases h1 : argc ≠ 8
  · simp [h1] at h
  · rw [if_neg h1] at h
    by_cases h0 : thread_count ≤ 0 ∨ thread_count > 1024
    · simp [h0] at h
    · rw [if_neg h0] at h
      by_cases h2 : sample_size ≤ 0 ∨ n ≤ 0 ∨ m ≤ 0
          ∨ double_eq (double_add (double_add m_member m_insert) m_delete) double_1_0 = false
      · simp [h2] at h
      · simp only [not_or, not_le, Bool.not_eq_false, gt_iff_lt, not_lt] at h2 h0
        exact ⟨not_not.mp h1, h0, h2.1, h2.2.1, h2.2.2.1, h2.2.2.2⟩

theorem generate_operations_stays_in_front (RAND_MAX : Nat) (m : Int)
    (m_member m_insert m_delete : Double) (operations_array : List Int) (draws : List Nat)
    (c1 c2 c3 : Nat)
    (h1 : truncate (int_times m m_member) = (c1 : Int))
    (h2 : truncate (int_times m m_insert) = (c2 : Int))
    (h3 : truncate (int_times m m_delete) = (c3 : Int))
    (hk : c1 + c2 + c3 ≤ m.toNat) (hM : m.toNat ≤ operations_array.length)
    (hs : c1 + c2 + c3 ≤ 2147483647) :
    (∃ mix rest, generate_operations RAND_MAX m m_member m_insert m_delete operations_array
          draws = .ok (mix ++ operations_array.drop m.toNat, rest) ∧
        mix.length = m.toNat) ∨
      generate_operations RAND_MAX m m_member m_insert m_delete operations_array draws
        = .error .no_draw := by
  have hlen : (operations_array.take m.toNat).length = m.toNat := by
    rw [List.length_take]
    omega
  obtain ⟨e1, -⟩ := generate_operations_append RAND_MAX m m_member m_insert m_delete
    (operations_array.take m.toNat) (operations_array.drop m.toNat) draws c1 c2 c3 h1 h2 h3
    (by omega) (by omega) hs
  rw [List.take_append_drop] at e1
  rw [e1]
  have hl2 : (List.replicate c1 (1 : Int) ++ List.replicate c2 2 ++ List.replicate c3 3
      ++ (operations_array.take m.toNat).drop (c1 + c2 + c3)).length = m.toNat := by
    simp only [List.length_append, List.length_replicate, List.length_drop, hlen]
    omega
  have hi : (m - 1).toNat = 0 ∨ (m - 1).toNat
      < (List.replicate c1 (1 : Int) ++ List.replicate c2 2 ++ List.replicate c3 3
          ++ (operations_array.take m.toNat).drop (c1 + c2 + c3)).length := by
    rw [hl2]
    omega
  rcases shuffle_loop_result RAND_MAX _ _ draws hi with ⟨mix, rest, hsh, hp, -⟩ | hsh
  · exact Or.inl ⟨mix, rest, by rw [hsh]; rfl, by rw [hp.length_eq, hl2]⟩
  · exact Or.inr (by rw [hsh]; rfl)

/-! ## Claims about the list operations -/

/-- C1: on a strictly increasing list, `insert(v)` and `delete(v)` leave a strictly
increasing (hence duplicate-free) list, and every list reached from the empty list by a
finite sequence of `insert` and `delete` calls is strictly increasing without duplicates. -/
theorem insert_delete_preserve_sorted (l : List Int) (v : Int) (calls : List Call)
    (hl : Sorted l) :
    (Sorted (insert v l).2 ∧ (insert v l).2.Nodup) ∧
    (Sorted (delete v l).2 ∧ (delete v l).2.Nodup) ∧
    (Sorted (run_calls calls []) ∧ (run_calls calls []).Nodup) :=
  ⟨⟨sorted_insert v l hl, sorted_nodup (sorted_insert v l hl)⟩,
   ⟨sorted_delete v l hl, sorted_nodup (sorted_delete v l hl)⟩,
   ⟨sorted_run_calls calls [] List.Pairwise.nil,
    sorted_nodup (sorted_run_calls calls [] List.Pairwise.nil)⟩⟩

theorem insert_delete_preserve_sorted_witness :
    Sorted [1, 3] ∧
    ((Sorted (insert 2 [1, 3]).2 ∧ (insert 2 [1, 3]).2.Nodup) ∧
     (Sorted (delete 3 [1, 3]).2 ∧ (delete 3 [1, 3]).2.Nodup) ∧
     (Sorted (run_calls [Call.ins 5, Call.ins 1, Call.del 5, Call.ins 3] []) ∧
      (run_calls [Call.ins 5, Call.ins 1, Call.del 5, Call.ins 3] []).Nodup)) ∧
    run_calls [Call.ins 5, Call.ins 1, Call.del 5, Call.ins 3] [] = [1, 3] ∧
    insert 2 [1, 3] = (1, [1, 2, 3]) ∧ delete 3 [1, 3] = (1, [1]) :=
  ⟨by decide,
   ⟨(insert_delete_preserve_sorted [1, 3] 2 [] (by decide)).1,
    (insert_delete_preserve_sorted [1, 3] 3 [] (by decide)).2.1,
    (insert_delete_preserve_sorted [1, 3] 2
      [Call.ins 5, Call.ins 1, Call.del 5, Call.ins 3] (by decide)).2.2⟩,
   by decide, by decide, by decide⟩

/-- C2: on a strictly increasing list `member(v)` returns 1 exactly when `v` occurs in the
list and 0 otherwise; it returns 0 on the empty list and when `v` exceeds every element. -/
theorem member_iff_mem (l : List Int) (v : Int) (hl : Sorted l) :
    (member v l = 1 ↔ v ∈ l) ∧ (member v l = 0 ↔ v ∉ l) ∧
    member v [] = 0 ∧ ((∀ x ∈ l, x < v) → member v l = 0) := by
  have h1 := member_eq_one_iff v l hl
  have h0 : member v l = 0 ↔ v ∉ l := by
    rw [← h1]
    rcases member_zero_or_one v l with h | h <;> simp [h]
  refine ⟨h1, h0, member_nil v, fun hlt => h0.mpr fun hv => ?_⟩
  exact lt_irrefl v (hlt v hv)

theorem member_iff_mem_witness :
    Sorted [2, 4, 7] ∧
    ((member 4 [2, 4, 7] = 1 ↔ (4 : Int) ∈ [2, 4, 7]) ∧
     (member 4 [2, 4, 7] = 0 ↔ (4 : Int) ∉ [2, 4, 7]) ∧
     member 4 [] = 0 ∧ ((∀ x ∈ [2, 4, 7], x < (4 : Int)) → member 4 [2, 4, 7] = 0)) ∧
    member 4 [2, 4, 7] = 1 ∧ member 5 [2, 4, 7] = 0 ∧ member 9 [2, 4, 7] = 0 :=
  ⟨by decide, member_iff_mem [2, 4, 7] 4 (by decide), by decide, by decide, by decide⟩

/-- C3: starting from the empty list, after any finite sequence of `insert` and `delete`
calls made by one thread, `member(v)` returns 1 exactly when the sequence contains an
`insert(v)` that no later `delete(v)` follows, and 0 otherwise. -/
theorem member_after_calls (calls : List Call) (v : Int) :
    (member v (run_calls calls []) = 1 ↔ InsertedNotDeleted v calls) ∧
    (member v (run_calls calls []) = 0 ↔ ¬ InsertedNotDeleted v calls) := by
  have hs := sorted_run_calls calls [] List.Pairwise.nil
  have h1 : member v (run_calls calls []) = 1 ↔ InsertedNotDeleted v calls := by
    rw [member_eq_one_iff v _ hs, mem_run_calls]
  refine ⟨h1, ?_⟩
  rw [← h1]
  rcases member_zero_or_one v (run_calls calls []) with h | h <;> simp [h]

/-- C4: on a strictly increasing list `insert(v)` returns 0 exactly when `v` already occurs,
and then leaves the list unchanged; otherwise it returns 1, the list grows by one node and
holds exactly the former elements and `v`. -/
theorem insert_correct (l : List Int) (v : Int) (hl : Sorted l) :
    ((insert v l).1 = 0 ↔ v ∈ l) ∧
    (v ∈ l → insert v l = (0, l)) ∧
    (v ∉ l → (insert v l).1 = 1 ∧ (insert v l).2.length = l.length + 1 ∧
      (insert v l).2.Perm (v :: l) ∧ ∀ x, x ∈ (insert v l).2 ↔ x = v ∨ x ∈ l) := by
  have h0 : (insert v l).1 = 0 ↔ v ∈ l := by
    refine ⟨insert_zero_mem v l, fun hv => ?_⟩
    rcases insert_zero_or_one v l with h | h
    · exact h
    · exact absurd hv (insert_one_not_mem v l hl h)
  refine ⟨h0, fun hv => ?_, fun hv => ?_⟩
  · have h := h0.mpr hv
    exact Prod.ext h (insert_zero_unchanged v l h)
  · have h : (insert v l).1 = 1 := by
      rcases insert_zero_or_one v l with h | h
      · exact absurd (h0.mp h) hv
      · exact h
    have hp := insert_one_perm v l h
    exact ⟨h, by simpa using hp.length_eq, hp, fun x => mem_insert v x l⟩

theorem insert_correct_witness :
    Sorted [1, 3] ∧
    (((insert 2 [1, 3]).1 = 0 ↔ (2 : Int) ∈ [1, 3]) ∧
     ((2 : Int) ∈ [1, 3] → insert 2 [1, 3] = (0, [1, 3])) ∧
     ((2 : Int) ∉ [1, 3] → (insert 2 [1, 3]).1 = 1 ∧
        (insert 2 [1, 3]).2.length = [1, 3].length + 1 ∧
        (insert 2 [1, 3]).2.Perm (2 :: [1, 3]) ∧
        ∀ x, x ∈ (insert 2 [1, 3]).2 ↔ x = 2 ∨ x ∈ [1, 3])) ∧
    insert 2 [1, 3] = (1, [1, 2, 3]) ∧ insert 3 [1, 3] = (0, [1, 3]) :=
  ⟨by decide, insert_correct [1, 3] 2 (by decide), by decide, by decide⟩

/-- C5: on a strictly increasing list `delete(v)` returns 0 exactly when `v` does not occur,
and then leaves the list unchanged; otherwise it returns 1, the list shrinks by one node and
holds exactly the other elements, in their former order. -/
theorem delete_correct (l : List Int) (v : Int) (hl : Sorted l) :
    ((delete v l).1 = 0 ↔ v ∉ l) ∧
    (v ∉ l → delete v l = (0, l)) ∧
    (v ∈ l → (delete v l).1 = 1 ∧ (delete v l).2.length = l.length - 1 ∧
      (delete v l).2.length + 1 = l.length ∧
      (delete v l).2 = l.filter (· ≠ v) ∧ ∀ x, x ∈ (delete v l).2 ↔ x ∈ l ∧ x ≠ v) := by
  have h0 : (delete v l).1 = 0 ↔ v ∉ l := by
    refine ⟨delete_zero_not_mem v l hl, fun hv => ?_⟩
    rcases delete_zero_or_one v l with h | h
    · exact h
    · exact absurd (delete_one_mem v l h) hv
  refine ⟨h0, fun hv => ?_, fun hv => ?_⟩
  · have h := h0.mpr hv
    exact Prod.ext h (delete_zero_unchanged v l h)
  · have h : (delete v l).1 = 1 := by
      rcases delete_zero_or_one v l with h | h
      · exact absurd hv (h0.mp h)
      · exact h
    have hlen : (delete v l).2.length = l.length - 1 := by
      rw [delete_one_erase v l h, List.length_erase_of_mem hv]
    have hpos : 0 < l.length := List.length_pos_of_mem hv
    exact ⟨h, hlen, by omega, delete_eq_filter v l hl, fun x => mem_delete v x l hl⟩

theorem delete_correct_witness :
    Sorted [1, 3, 8] ∧
    (((delete 3 [1, 3, 8]).1 = 0 ↔ (3 : Int) ∉ [1, 3, 8]) ∧
     ((3 : Int) ∉ [1, 3, 8] → delete 3 [1, 3, 8] = (0, [1, 3, 8])) ∧
     ((3 : Int) ∈ [1, 3, 8] → (delete 3 [1, 3, 8]).1 = 1 ∧
        (delete 3 [1, 3, 8]).2.length = [1, 3, 8].length - 1 ∧
        (delete 3 [1, 3, 8]).2.length + 1 = [1, 3, 8].length ∧
        (delete 3 [1, 3, 8]).2 = [1, 3, 8].filter (· ≠ 3) ∧
        ∀ x, x ∈ (delete 3 [1, 3, 8]).2 ↔ x ∈ [1, 3, 8] ∧ x ≠ 3)) ∧
    delete 3 [1, 3, 8] = (1, [1, 8]) ∧ delete 4 [1, 3, 8] = (0, [1, 3, 8]) :=
  ⟨by decide, delete_correct [1, 3, 8] 3 (by decide), by decide, by decide⟩

/-! ## Claims about the workload generator -/

/-- C6: `shuffle(array, n)` on an array of length `n`, whenever `rand_int` terminates on the
draws, leaves an array of the same length that is a permutation of the input (every value
occurs as often as before); no access falls outside the array, so the only way not to
return is to run out of draws; slots of a larger buffer beyond the first `n` are neither
read nor written; and on draws that `rand_int` accepts the call does return. -/
theorem shuffle_permutes (RAND_MAX : Nat) (array : List Int) (n : Int) (draws : List Nat)
    (hn : (array.length : Int) = n) :
    (∀ array1 rest, shuffle RAND_MAX array n draws = .ok (array1, rest) →
      array1.length = array.length ∧ array1.Perm array ∧
      ∀ x, array1.count x = array.count x) ∧
    (∀ e, shuffle RAND_MAX array n draws = .error e → e = Fault.no_draw) ∧
    (∀ extra, shuffle RAND_MAX (array ++ extra) n draws =
      (shuffle RAND_MAX array n draws).map (fun r => (r.1 ++ extra, r.2))) ∧
    ((n - 1).toNat ≤ draws.length →
      (∀ d ∈ draws, ∀ k : Nat, 2 ≤ k → (k : Int) ≤ n → d < RAND_MAX - RAND_MAX % k) →
      ∃ r, shuffle RAND_MAX array n draws = .ok r) := by
  have hi : (n - 1).toNat = 0 ∨ (n - 1).toNat < array.length := by omega
  unfold shuffle
  refine ⟨fun array1 rest h => ?_, fun e h => ?_, fun extra => ?_, fun hlen hd => ?_⟩
  · rcases shuffle_loop_result RAND_MAX _ array draws hi with ⟨a1, r1, h1, h2, -⟩ | h1
    · rw [h1] at h
      simp only [Except.ok.injEq, Prod.mk.injEq] at h
      rw [← h.1]
      exact ⟨h2.length_eq, h2, fun x => h2.count_eq x⟩
    · rw [h1] at h
      cases h
  · rcases shuffle_loop_result RAND_MAX _ array draws hi with ⟨a1, r1, h1, -⟩ | h1
    · rw [h1] at h
      cases h
    · rw [h1] at h
      simp only [Except.error.injEq] at h
      exact h.symm
  · exact shuffle_loop_append RAND_MAX _ array extra draws hi
  · apply shuffle_loop_total RAND_MAX _ array draws hi hlen
    intro d hd1 k hk1 hk2
    exact hd d hd1 k hk1 (by omega)

theorem shuffle_permutes_witness :
    (([1, 2, 3, 4, 5] : List Int).length : Int) = 5 ∧
    shuffle 32767 [1, 2, 3, 4, 5] 5 [3, 2, 40000, 1, 0] = .ok ([5, 1, 2, 3, 4], []) ∧
    ([5, 1, 2, 3, 4] : List Int).length = [1, 2, 3, 4, 5].length ∧
    ([5, 1, 2, 3, 4] : List Int).Perm [1, 2, 3, 4, 5] ∧
    shuffle 32767 ([1, 2, 3, 4, 5] ++ [7, 7]) 5 [3, 2, 40000, 1, 0]
      = .ok ([5, 1, 2, 3, 4, 7, 7], []) ∧
    shuffle 32767 [1, 2, 3, 4, 5] 5 [3, 2, 40000, 1] = .error Fault.no_draw :=
  have h := shuffle_permutes 32767 [1, 2, 3, 4, 5] 5 [3, 2, 40000, 1, 0] (by decide)
  have h1 := h.1 [5, 1, 2, 3, 4] [] rfl
  ⟨by decide, rfl, h1.1, h1.2.1, rfl, rfl⟩

/-- The values `double_0_3` and `double_0_2` have 53-digit significands and lie within half a
unit in the last place of `3/10` and `2/10`; `double_0_5` is `1/2` exactly. -/
theorem decimal_fractions_nearest :
    (2 ^ 52 ≤ double_0_3.man ∧ double_0_3.man < 2 ^ 53 ∧ double_0_3.exp = -54 ∧
      2 * (10 * double_0_3.man - 3 * 2 ^ 54).natAbs ≤ 10) ∧
    (2 ^ 52 ≤ double_0_2.man ∧ double_0_2.man < 2 ^ 53 ∧ double_0_2.exp = -55 ∧
      2 * (10 * double_0_2.man - 2 * 2 ^ 55).natAbs ≤ 10) ∧
    (2 ^ 52 ≤ double_0_5.man ∧ double_0_5.man < 2 ^ 53 ∧ double_0_5.exp = -53 ∧
      2 * double_0_5.man = 2 ^ 53) := by
  decide

/-- C7: for `m` in `[1, 10000]` and fractions whose truncated counts `c1`, `c2`, `c3` are
non-negative and sum to `m`, `generate_operations` lays out tag 1 in slots `[0, c1)`, tag 2
in `[c1, c1 + c2)` and tag 3 in `[c1 + c2, m)` before shuffling; whenever it returns, the
first `m` slots hold exactly `c1` Member, `c2` Insert and `c3` Delete tags; it can fail to
return only by running out of draws; and for `m = 100` with the fractions 0.5, 0.3, 0.2 the
counts are 50, 30 and 20. -/
theorem generate_operations_counts (RAND_MAX : Nat) (m : Int)
    (m_member m_insert m_delete : Double) (operations_array : List Int) (draws : List Nat)
    (c1 c2 c3 : Nat) (hm : 1 ≤ m ∧ m ≤ 10000)
    (hbuf : operations_array.length = MAX_OPERATIONS_SIZE)
    (h1 : truncate (int_times m m_member) = (c1 : Int))
    (h2 : truncate (int_times m m_insert) = (c2 : Int))
    (h3 : truncate (int_times m m_delete) = (c3 : Int))
    (hsum : (c1 : Int) + (c2 : Int) + (c3 : Int) = m) :
    layout_operations c1 c2 c3 operations_array
      = .ok (List.replicate c1 1 ++ List.replicate c2 2 ++ List.replicate c3 3
          ++ operations_array.drop m.toNat) ∧
    (∀ buf rest, generate_operations RAND_MAX m m_member m_insert m_delete operations_array
        draws = .ok (buf, rest) →
      buf.length = MAX_OPERATIONS_SIZE ∧ count_tag 1 m.toNat buf = c1 ∧
      count_tag 2 m.toNat buf = c2 ∧ count_tag 3 m.toNat buf = c3) ∧
    (∀ e, generate_operations RAND_MAX m m_member m_insert m_delete operations_array
        draws = .error e → e = Fault.no_draw) ∧
    ((m - 1).toNat ≤ draws.length →
      (∀ d ∈ draws, ∀ k : Nat, 2 ≤ k → (k : Int) ≤ m → d < RAND_MAX - RAND_MAX % k) →
      ∃ r, generate_operations RAND_MAX m m_member m_insert m_delete operations_array
        draws = .ok r) ∧
    (m = 100 → m_member = double_0_5 → m_insert = double_0_3 → m_delete = double_0_2 →
      c1 = 50 ∧ c2 = 30 ∧ c3 = 20) := by
  have hmc : m = ((c1 + c2 + c3 : Nat) : Int) := by omega
  subst hmc
  have hN : (((c1 + c2 + c3 : Nat) : Int)).toNat = c1 + c2 + c3 := Int.toNat_ofNat _
  have hle : c1 + c2 + c3 ≤ operations_array.length := by
    rw [hbuf, MAX_OPERATIONS_SIZE]; omega
  have hpos : 1 ≤ c1 + c2 + c3 := by omega
  have hs : c1 + c2 + c3 ≤ 2147483647 := by omega
  have hres := generate_operations_result RAND_MAX m_member m_insert m_delete
    operations_array draws c1 c2 c3 hpos hle hs h1 h2 h3
  have hcount := count_layout c1 c2 c3
  rw [hN]
  refine ⟨layout_operations_eq c1 c2 c3 operations_array hle hs, ?_, ?_, ?_, ?_⟩
  · intro buf rest h
    rcases hres with ⟨mix, rest1, hg, hp⟩ | hg
    · rw [hg] at h
      simp only [Except.ok.injEq, Prod.mk.injEq] at h
      rw [← h.1, count_tag_mix 1 mix _ c1 c2 c3 hp, count_tag_mix 2 mix _ c1 c2 c3 hp,
        count_tag_mix 3 mix _ c1 c2 c3 hp]
      refine ⟨?_, hcount.1, hcount.2.1, hcount.2.2⟩
      rw [List.length_append, hp.length_eq, List.length_drop]
      simp only [List.length_append, List.length_replicate]
      omega
    · rw [hg] at h
      cases h
  · intro e h
    rcases hres with ⟨mix, rest1, hg, -⟩ | hg
    · rw [hg] at h
      cases h
    · rw [hg] at h
      simp only [Except.error.injEq] at h
      exact h.symm
  · intro hlen hd
    rw [generate_operations_eq RAND_MAX m_member m_insert m_delete operations_array draws
      c1 c2 c3 hpos hle hs h1 h2 h3]
    have hi : c1 + c2 + c3 - 1 = 0 ∨ c1 + c2 + c3 - 1
        < (List.replicate c1 (1 : Int) ++ List.replicate c2 2
            ++ List.replicate c3 3).length := by
      right
      simp only [List.length_append, List.length_replicate]
      omega
    obtain ⟨r, hr⟩ := shuffle_loop_total RAND_MAX (c1 + c2 + c3 - 1) _ draws hi
      (by omega) (fun d hd1 k hk1 hk2 => hd d hd1 k hk1 (by omega))
    exact ⟨_, by rw [hr]; rfl⟩
  · intro hm100 e1 e2 e3
    rw [hm100, e1] at h1
    rw [hm100, e2] at h2
    rw [hm100, e3] at h3
    have t1 : truncate (int_times 100 double_0_5) = 50 := by decide
    have t2 : truncate (int_times 100 double_0_3) = 30 := by decide
    have t3 : truncate (int_times 100 double_0_2) = 20 := by decide
    rw [t1] at h1
    rw [t2] at h2
    rw [t3] at h3
    omega

theorem generate_operations_counts_witness :
    ((1 : Int) ≤ 100 ∧ (100 : Int) ≤ 10000) ∧
    (List.replicate 10000 (0 : Int)).length = MAX_OPERATIONS_SIZE ∧
    truncate (int_times 100 double_0_5) = ((50 : Nat) : Int) ∧
    truncate (int_times 100 double_0_3) = ((30 : Nat) : Int) ∧
    truncate (int_times 100 double_0_2) = ((20 : Nat) : Int) ∧
    ((50 : Nat) : Int) + ((30 : Nat) : Int) + ((20 : Nat) : Int) = 100 ∧
    layout_operations (50 : Nat) (30 : Nat) (20 : Nat) (List.replicate 10000 0)
      = .ok (List.replicate 50 1 ++ List.replicate 30 2 ++ List.replicate 20 3
          ++ (List.replicate 10000 0).drop (100 : Int).toNat) :=
  ⟨by decide, List.length_replicate _ _, by decide, by decide, by decide, by decide,
   (generate_operations_counts 2147483647 100 double_0_5 double_0_3 double_0_2
      (List.replicate 10000 0) [] 50 30 20 (by decide) (List.length_replicate _ _)
      (by decide) (by decide) (by decide) (by decide)).1⟩

/-! ## Claims about the experiment runner -/

/-- C8: for `m ≥ 1` and `thread_count` in `[1, 1024]`, with `local_m = m / thread_count`, the
slots dispatched by rank `r` are exactly `[r * local_m, (r + 1) * local_m)`: `local_m` of
them, each slice ending where the next starts, slices of different ranks disjoint, and all
ranks together dispatching exactly the slots `[0, thread_count * local_m)`, which are
`m - m % thread_count` slots; the last `m % thread_count` slots are dispatched by no rank,
and when `thread_count` divides `m` every slot of `[0, m)` is dispatched by exactly one rank. -/
theorem thread_slices_partition (m thread_count : Int) (hm : 1 ≤ m)
    (hT : 1 ≤ thread_count ∧ thread_count ≤ 1024) :
    local_m m thread_count = m / thread_count ∧
    (∀ r : Int, 0 ≤ r → r < thread_count →
      ((thread_slots m thread_count r).length : Int) = local_m m thread_count ∧
      (∀ i, i ∈ thread_slots m thread_count r
        ↔ r * local_m m thread_count ≤ i ∧ i < (r + 1) * local_m m thread_count) ∧
      my_last_index m thread_count r = my_start_index m thread_count (r + 1)) ∧
    (∀ r s i : Int, r ≠ s →
      i ∈ thread_slots m thread_count r → i ∉ thread_slots m thread_count s) ∧
    dispatched_slots m thread_count
      = (List.range (thread_count * local_m m thread_count).toNat).map
          (fun (i : Nat) => (i : Int)) ∧
    ((dispatched_slots m thread_count).length : Int) = m - m % thread_count ∧
    (∀ i, i ∈ dispatched_slots m thread_count ↔ 0 ≤ i ∧ i < m - m % thread_count) ∧
    (∀ i, m - m % thread_count ≤ i → i < m →
      ∀ r, 0 ≤ r → r < thread_count → i ∉ thread_slots m thread_count r) ∧
    (∀ i, 0 ≤ i → i < m - m % thread_count →
      ∃! r, (0 ≤ r ∧ r < thread_count) ∧ i ∈ thread_slots m thread_count r) ∧
    (m % thread_count = 0 → ∀ i, 0 ≤ i → i < m →
      ∃! r, (0 ≤ r ∧ r < thread_count) ∧ i ∈ thread_slots m thread_count r) := by
  obtain ⟨M, rfl⟩ := Int.eq_ofNat_of_zero_le (show 0 ≤ m by omega)
  obtain ⟨t, rfl⟩ := Int.eq_ofNat_of_zero_le (show 0 ≤ thread_count by omega)
  have hL : local_m (M : Int) (t : Int) = (M : Int) / (t : Int) := by
    rw [local_m_nat]; rfl
  have hL0 : 0 ≤ local_m (M : Int) (t : Int) := by
    rw [local_m_nat]
    exact Int.ofNat_nonneg _
  obtain ⟨N, hN⟩ : ∃ N : Nat, t * (M / t) = N := ⟨_, rfl⟩
  have hNc : (N : Int) = (M : Int) - (M : Int) % (t : Int) := by
    have h1 : ((t * (M / t) + M % t : Nat) : Int) = (M : Int) := by
      rw [Nat.div_add_mod]
    rw [← hN]
    push_cast at h1 ⊢
    omega
  have hdiv : (t : Int) * local_m (M : Int) (t : Int) = (N : Int) := by
    rw [local_m_nat, ← hN]
    push_cast
    rfl
  have hmod : 0 ≤ (M : Int) % (t : Int) ∧ (M : Int) % (t : Int) < (t : Int) :=
    ⟨Int.emod_nonneg _ (by omega), Int.emod_lt_of_pos _ (by omega)⟩
  have hmem : ∀ i, i ∈ dispatched_slots (M : Int) (t : Int)
      ↔ 0 ≤ i ∧ i < (M : Int) - (M : Int) % (t : Int) := by
    intro i
    rw [dispatched_slots_nat, hN]
    simp only [List.mem_map, List.mem_range]
    constructor
    · rintro ⟨k, hk, rfl⟩
      omega
    · rintro ⟨h1, h2⟩
      exact ⟨i.toNat, by omega, by omega⟩
  have huniq : ∀ i, 0 ≤ i → i < (M : Int) - (M : Int) % (t : Int) →
      ∃! r, (0 ≤ r ∧ r < (t : Int)) ∧ i ∈ thread_slots (M : Int) (t : Int) r := by
    intro i h1 h2
    obtain ⟨r, hr1, hr2⟩ := thread_slots_exists (M : Int) (t : Int) i h1 (by omega) hL0
    refine ⟨r, ⟨hr1, hr2⟩, ?_⟩
    rintro s ⟨-, hs⟩
    rcases Int.lt_trichotomy r s with h | h | h
    · exact (thread_slots_disjoint _ _ r s i hL0 h hr2 hs).elim
    · exact h.symm
    · exact (thread_slots_disjoint _ _ s r i hL0 h hs hr2).elim
  refine ⟨hL, ?_, ?_, ?_, ?_, hmem, ?_, huniq, ?_⟩
  · intro r hr0 hrT
    refine ⟨?_, fun i => mem_thread_slots _ _ r i, ?_⟩
    · obtain ⟨rn, rfl⟩ := Int.eq_ofNat_of_zero_le hr0
      rw [thread_slots_nat, local_m_nat]
      simp
    · rfl
  · intro r s i hrs hr hs
    rcases Int.lt_or_gt_of_ne hrs with h | h
    · exact thread_slots_disjoint _ _ r s i hL0 h hr hs
    · exact thread_slots_disjoint _ _ s r i hL0 h hs hr
  · rw [dispatched_slots_nat, hdiv, hN, Int.toNat_ofNat]
  · rw [dispatched_slots_nat, hN, ← hNc]
    simp
  · intro i h1 h2 r hr0 hrT hmem1
    rw [mem_thread_slots] at hmem1
    unfold my_start_index my_last_index at hmem1
    have : (r + 1) * local_m (M : Int) (t : Int) ≤ (t : Int) * local_m (M : Int) (t : Int) :=
      Int.mul_le_mul_of_nonneg_right (by omega) hL0
    omega
  · intro h0 i h1 h2
    exact huniq i h1 (by omega)

theorem thread_slices_partition_witness :
    (1 : Int) ≤ 1000 ∧ ((1 : Int) ≤ 4 ∧ (4 : Int) ≤ 1024) ∧
    local_m 1000 4 = 250 ∧
    dispatched_slots 1000 4
      = (List.range ((4 : Int) * local_m 1000 4).toNat).map (fun (i : Nat) => (i : Int)) ∧
    ((dispatched_slots 1000 4).length : Int) = 1000 - 1000 % 4 ∧
    ((thread_slots 1000 4 3).length : Int) = local_m 1000 4 ∧
    my_start_index 1000 4 3 = 750 ∧ my_last_index 1000 4 3 = 1000 ∧
    dispatched_slots 10 3 = [0, 1, 2, 3, 4, 5, 6, 7, 8] ∧
    thread_slots 10 3 2 = [6, 7, 8] :=
  have h := thread_slices_partition 1000 4 (by decide) (by decide)
  ⟨by decide, by decide, by decide, h.2.2.2.1, h.2.2.2.2.1, (h.2.1 3 (by decide) (by decide)).1,
   by decide, by decide, by decide, by decide⟩

/-- C9: for `n ≥ 1`, whenever the population loop of `run_experiment`, started on the empty
list, terminates on the draws, the list holds exactly `n` values, all distinct, all in
`[0, 65536)`, strictly increasing, and they are the values `rand() % 65536` of the draws
used; a draw whose value is already present leaves the counter and the list as they were
(it is retried); the loop can fail to return only by running out of draws, and it returns
as soon as the draws hold `n` distinct values modulo 65536. -/
theorem populate_correct (n : Int) (draws : List Nat) (hn : 1 ≤ n) :
    (∀ head rest, populate n draws = .ok (head, rest) →
      (head.length : Int) = n ∧ head.Nodup ∧ Sorted head ∧
      (∀ x ∈ head, 0 ≤ x ∧ x < 65536) ∧
      ∃ used, draws = used ++ rest ∧
        ∀ x, x ∈ head ↔ ∃ d ∈ used, x = ((d % 65536 : Nat) : Int)) ∧
    (∀ (i : Int) (head : List Int) (d : Nat) (ds : List Nat), i < n → Sorted head →
      ((d % 65536 : Nat) : Int) ∈ head →
      populate_loop n i head (d :: ds) = populate_loop n i head ds) ∧
    (∀ e, populate n draws = .error e → e = Fault.no_draw) ∧
    (n.toNat ≤ (draws.map (fun (d : Nat) => ((d % 65536 : Nat) : Int))).toFinset.card →
      ∃ r, populate n draws = .ok r) := by
  have hres := populate_loop_result n draws 0 [] rfl (by omega) List.Pairwise.nil
    (by simp)
  unfold populate
  refine ⟨fun head rest h => ?_, fun i head d ds hi hs hmem =>
    populate_loop_collision n i head d ds hi hs hmem, fun e h => ?_, fun hc => ?_⟩
  · rcases hres with ⟨res, rest1, used, h1, h2, h3, h4, h5, h6⟩ | h1
    · rw [h1] at h
      simp only [Except.ok.injEq, Prod.mk.injEq] at h
      obtain ⟨rfl, rfl⟩ := h
      exact ⟨h2, sorted_nodup h3, h3, h4, used, h5, fun x => by simpa using h6 x⟩
    · rw [h1] at h
      cases h
  · rcases hres with ⟨res, rest1, used, h1, -⟩ | h1
    · rw [h1] at h
      cases h
    · rw [h1] at h
      simp only [Except.error.injEq] at h
      exact h.symm
  · apply populate_loop_total n draws 0 [] List.Pairwise.nil
    simpa using hc

theorem populate_correct_witness :
    (1 : Int) ≤ 3 ∧
    populate 3 [5, 65541, 2, 2, 7, 9] = .ok ([2, 5, 7], [9]) ∧
    ((([2, 5, 7] : List Int).length : Nat) : Int) = 3 ∧ ([2, 5, 7] : List Int).Nodup ∧
    Sorted [2, 5, 7] ∧
    populate 3 [5, 65541, 2, 2] = .error Fault.no_draw :=
  have h := (populate_correct 3 [5, 65541, 2, 2, 7, 9] (by decide)).1 [2, 5, 7] [9] rfl
  ⟨by decide, rfl, h.1, h.2.1, h.2.2.1, rfl⟩

/-! ## Claims about the statistics -/

/-- C10: over exact real arithmetic, for more than one recorded sample both variants report
the mean `(sum of x_i) / sampleSize` and the standard deviation
`sqrt (sum of (x_i - mean)^2 / (sampleSize - 1))`; for the samples 1, 2, 3, 4, 5 the mean is 3
and the standard deviation is `sqrt 2.5`, within 0.0001 of 1.5811; for a single sample only
the mean is printed and no standard deviation. -/
theorem statistics_correct (execution_times : List ℝ) (h : 1 < execution_times.length) :
    average_time execution_times = execution_times.sum / (execution_times.length : ℝ) ∧
    standard_deviation Real.sqrt execution_times
      = Real.sqrt ((execution_times.map
          (fun x => (x - execution_times.sum / (execution_times.length : ℝ)) ^ 2)).sum
          / ((execution_times.length : ℝ) - 1)) ∧
    main_parallel Real.sqrt execution_times
      = [Line.average_elapsed_time (average_time execution_times),
         Line.standard_deviation (standard_deviation Real.sqrt execution_times)] ∧
    main_serial Real.sqrt execution_times
      = [Line.average_elapsed_time (average_time execution_times),
         Line.standard_deviation (standard_deviation Real.sqrt execution_times),
         Line.required_samples_size (sample_size_n Real.sqrt execution_times)] ∧
    average_time ([1, 2, 3, 4, 5] : List ℝ) = 3 ∧
    standard_deviation Real.sqrt ([1, 2, 3, 4, 5] : List ℝ) = Real.sqrt (5 / 2) ∧
    |Real.sqrt (5 / 2) - 15811 / 10000| < 1 / 10000 ∧
    (∀ x : ℝ, main_parallel Real.sqrt [x] = [Line.average_elapsed_time x] ∧
      main_serial Real.sqrt [x] = [Line.average_elapsed_time x]) := by
  have havg : ∀ l : List ℝ, average_time l = l.sum / (l.length : ℝ) := by
    intro l
    unfold average_time
    rw [total_time_eq_sum]
    norm_cast
  have hsd : ∀ l : List ℝ, standard_deviation Real.sqrt l
      = Real.sqrt ((l.map (fun x => (x - l.sum / (l.length : ℝ)) ^ 2)).sum
          / ((l.length : ℝ) - 1)) := by
    intro l
    unfold standard_deviation
    rw [variance_eq_sum, havg]
    push_cast
    rfl
  have hgt : ((execution_times.length : Nat) : Int) > 1 := by omega
  have h3 : average_time ([1, 2, 3, 4, 5] : List ℝ) = 3 := by
    rw [havg]
    norm_num
  refine ⟨havg _, hsd _, ?_, ?_, h3, ?_, sqrt_five_halves_near, fun x => ?_⟩
  · unfold main_parallel
    rw [if_pos hgt]
  · unfold main_serial
    rw [if_pos hgt]
  · rw [hsd]
    congr 1
    norm_num
  · have hx : average_time [x] = x := by
      rw [havg]
      simp
    unfold main_parallel main_serial
    rw [hx]
    simp

theorem statistics_correct_witness :
    1 < ([1, 2, 3, 4, 5] : List ℝ).length ∧
    average_time ([1, 2, 3, 4, 5] : List ℝ)
      = ([1, 2, 3, 4, 5] : List ℝ).sum / (([1, 2, 3, 4, 5] : List ℝ).length : ℝ) ∧
    average_time ([1, 2, 3, 4, 5] : List ℝ) = 3 ∧
    standard_deviation Real.sqrt ([1, 2, 3, 4, 5] : List ℝ) = Real.sqrt (5 / 2) :=
  have h := statistics_correct [1, 2, 3, 4, 5] (by decide)
  ⟨by decide, h.1, h.2.2.2.2.1, h.2.2.2.2.2.1⟩

/-! ## Further claims about the list operations -/

/-- C20: on a strictly increasing list `L`, for `v` not in `L` the call `delete(v)` after
`insert(v)` returns 1 and leaves exactly `L`; for `v` in `L` the call `insert(v)` after
`delete(v)` leaves exactly `L`. -/
theorem insert_delete_roundtrip (l : List Int) (v : Int) (hl : Sorted l) :
    (v ∉ l → (insert v l).1 = 1 ∧ delete v (insert v l).2 = (1, l)) ∧
    (v ∈ l → (delete v l).1 = 1 ∧ insert v (delete v l).2 = (1, l)) := by
  refine ⟨fun hv => ⟨?_, delete_after_insert v l hv⟩,
    fun hv => ⟨?_, insert_after_delete v l hl hv⟩⟩
  · rcases insert_zero_or_one v l with h | h
    · exact absurd (insert_zero_mem v l h) hv
    · exact h
  · rcases delete_zero_or_one v l with h | h
    · exact absurd hv (delete_zero_not_mem v l hl h)
    · exact h

theorem insert_delete_roundtrip_witness :
    Sorted [1, 3, 8] ∧
    (((4 : Int) ∉ [1, 3, 8] →
        (insert 4 [1, 3, 8]).1 = 1 ∧ delete 4 (insert 4 [1, 3, 8]).2 = (1, [1, 3, 8])) ∧
     ((4 : Int) ∈ [1, 3, 8] →
        (delete 4 [1, 3, 8]).1 = 1 ∧ insert 4 (delete 4 [1, 3, 8]).2 = (1, [1, 3, 8]))) ∧
    delete 4 (insert 4 [1, 3, 8]).2 = (1, [1, 3, 8]) ∧
    insert 3 (delete 3 [1, 3, 8]).2 = (1, [1, 3, 8]) :=
  ⟨by decide, insert_delete_roundtrip [1, 3, 8] 4 (by decide), by decide, by decide⟩

/-! ## Further claims about the workload generator -/

/-- C15: for `1 ≤ n ≤ RAND_MAX` and draws that contain a value below
`limit = RAND_MAX - RAND_MAX % n`, `rand_int(n)` terminates: it skips the draws that are at
least `limit` and returns the first draw below `limit`, reduced modulo `n`, a value in
`[0, n)`; `limit` is a positive multiple of `n`, and every result `r` in `[0, n)` comes from
exactly `limit / n` of the accepted raw values `[0, limit)`. -/
theorem rand_int_unbiased (RAND_MAX n : Nat) (draws : List Nat) (hn : 1 ≤ n ∧ n ≤ RAND_MAX)
    (hd : ∃ d ∈ draws, d < RAND_MAX - RAND_MAX % n) :
    (∃ skipped d rest, draws = skipped ++ d :: rest ∧
      (∀ x ∈ skipped, RAND_MAX - RAND_MAX % n ≤ x) ∧ d < RAND_MAX - RAND_MAX % n ∧
      rand_int RAND_MAX n draws = .ok (d % n, rest) ∧ d % n < n) ∧
    0 < RAND_MAX - RAND_MAX % n ∧
    (RAND_MAX - RAND_MAX % n) % n = 0 ∧
    (∀ r, r < n →
      ((List.range (RAND_MAX - RAND_MAX % n)).filter (fun rnd => rnd % n = r)).length
        = (RAND_MAX - RAND_MAX % n) / n) := by
  have hn0 : n ≠ 0 := by omega
  have hmul := limit_multiple RAND_MAX n
  refine ⟨?_, ?_, ?_, fun r hr => ?_⟩
  · obtain ⟨skipped, d, rest, h1, h2, h3, h4⟩ := rand_int_loop_first _ n draws hd
    refine ⟨skipped, d, rest, h1, h2, h3, ?_, Nat.mod_lt d (by omega)⟩
    unfold rand_int
    rw [if_neg hn0, h4]
  · have := Nat.mod_lt RAND_MAX (show 0 < n by omega)
    omega
  · rw [hmul]
    exact Nat.mul_mod_left _ _
  · rw [hmul, count_residue n (RAND_MAX / n) r hr, Nat.mul_div_cancel _ (by omega)]

theorem rand_int_unbiased_witness :
    ((1 : Nat) ≤ 3 ∧ (3 : Nat) ≤ 10) ∧
    (∃ d ∈ [9, 10, 7, 4], d < 10 - 10 % 3) ∧
    rand_int 10 3 [9, 10, 7, 4] = .ok (1, [4]) ∧
    0 < 10 - 10 % 3 ∧ (10 - 10 % 3) % 3 = 0 ∧
    ((List.range (10 - 10 % 3)).filter (fun rnd => rnd % 3 = 2)).length = (10 - 10 % 3) / 3 :=
  have h := rand_int_unbiased 10 3 [9, 10, 7, 4] (by decide) ⟨7, by decide, by decide⟩
  ⟨by decide, ⟨7, by decide, by decide⟩, rfl, h.2.1, h.2.2.1, h.2.2.2 2 (by decide)⟩

/-! ## Further claims about the statistics -/

/-- C17: over exact real arithmetic, for more than one sample with non-zero mean the serial
variant prints, after the mean and the standard deviation, the required sample size
`(100 * 1.96 * stddev / (5 * mean))^2` of those two reported values; the concurrent
variant never prints a required sample size, and with a single sample neither variant does. -/
theorem required_samples_size_serial_only (execution_times : List ℝ)
    (h : 1 < execution_times.length) (hmean : average_time execution_times ≠ 0) :
    main_serial Real.sqrt execution_times
      = [Line.average_elapsed_time (average_time execution_times),
         Line.standard_deviation (standard_deviation Real.sqrt execution_times),
         Line.required_samples_size
           ((100 * 1.96 * standard_deviation Real.sqrt execution_times
              / (5 * average_time execution_times)) ^ 2)] ∧
    sample_size_n Real.sqrt execution_times * (5 * average_time execution_times) ^ 2
      = (100 * 1.96 * standard_deviation Real.sqrt execution_times) ^ 2 ∧
    (∀ (times : List ℝ) (x : ℝ),
      Line.required_samples_size x ∉ main_parallel Real.sqrt times) ∧
    (∀ x y : ℝ, Line.required_samples_size y ∉ main_serial Real.sqrt [x] ∧
      Line.required_samples_size y ∉ main_parallel Real.sqrt [x]) := by
  have hgt : ((execution_times.length : Nat) : Int) > 1 := by omega
  have hpar : ∀ (times : List ℝ) (x : ℝ),
      Line.required_samples_size x ∉ main_parallel Real.sqrt times := by
    intro times x
    unfold main_parallel
    split <;> simp
  refine ⟨?_, ?_, hpar, fun x y => ⟨?_, hpar [x] y⟩⟩
  · unfold main_serial sample_size_n
    rw [if_pos hgt]
    norm_num
  · unfold sample_size_n
    field_simp
    ring
  · unfold main_serial
    simp

theorem required_samples_size_serial_only_witness :
    1 < ([1, 2, 3, 4, 5] : List ℝ).length ∧
    average_time ([1, 2, 3, 4, 5] : List ℝ) ≠ 0 ∧
    main_serial Real.sqrt ([1, 2, 3, 4, 5] : List ℝ)
      = [Line.average_elapsed_time (average_time ([1, 2, 3, 4, 5] : List ℝ)),
         Line.standard_deviation (standard_deviation Real.sqrt ([1, 2, 3, 4, 5] : List ℝ)),
         Line.required_samples_size
           ((100 * 1.96 * standard_deviation Real.sqrt ([1, 2, 3, 4, 5] : List ℝ)
              / (5 * average_time ([1, 2, 3, 4, 5] : List ℝ))) ^ 2)] :=
  have hne : average_time ([1, 2, 3, 4, 5] : List ℝ) ≠ 0 := by
    rw [average_time_example]
    norm_num
  ⟨by decide, hne, (required_samples_size_serial_only [1, 2, 3, 4, 5] (by decide) hne).1⟩

/-! ## Further claims about the experiment runner -/

/-- C18: for `n > 65536`, which the validation accepts in both variants, the population loop
terminates on no draws whatever (only 65536 values of `rand() % 65536` exist); for every
`n ≤ 65536` there are draws, all below 65536, on which it terminates. -/
theorem populate_terminates_up_to_65536 (n : Int) :
    (65536 < n → ∀ draws, populate n draws = .error Fault.no_draw) ∧
    (65536 < n →
      initialise_serial 7 1 n 1 double_1_0 double_0_0 double_0_0 = true ∧
      initialise_parallel 8 1 1 n 1 double_1_0 double_0_0 double_0_0 = true) ∧
    (n ≤ 65536 → ∃ draws, (∀ d ∈ draws, d < 65536) ∧ ∃ r, populate n draws = .ok r) := by
  refine ⟨fun hn draws => populate_too_many n hn draws, fun hn => ?_, fun hn => ?_⟩
  · have hn0 : ¬ n ≤ 0 := by omega
    unfold initialise_serial initialise_parallel MAX_THREADS
    simp [unit_fractions_sum, hn0]
  · refine ⟨List.range n.toNat, fun d hd => ?_, populate_enough n hn⟩
    rw [List.mem_range] at hd
    omega

theorem populate_terminates_up_to_65536_witness :
    ((65536 : Int) < 65537 ∧ populate 65537 [3, 3, 5] = .error Fault.no_draw) ∧
    ((2 : Int) ≤ 65536 ∧ populate 2 [3, 3, 5] = .ok ([3, 5], [])) ∧
    initialise_serial 7 1 65537 1 double_1_0 double_0_0 double_0_0 = true :=
  have h := populate_terminates_up_to_65536 65537
  ⟨⟨by decide, h.1 (by decide) [3, 3, 5]⟩, ⟨by decide, rfl⟩, (h.2.1 (by decide)).1⟩

/-- C19: with `thread_count = 1` and the global list empty at entry, a repetition of the
concurrent variant does what a repetition of the serial variant does, for all `n`, `m`,
fractions, buffer contents and draws: the same buffer after `generate_operations`, the same
calls on the list with the same operands and results in the same order, the same list and
the same draws left at the end of the timed window, and the same fault when one fails; the
draws go to the shuffle, then to the population phase, then one to each slot `0 .. m-1`. -/
theorem single_thread_equals_serial (RAND_MAX : Nat) (n m : Int)
    (m_member m_insert m_delete : Double) (operations_array : List Int) (draws : List Nat) :
    (run_experiment_parallel RAND_MAX 1 n m m_member m_insert m_delete operations_array []
        draws).map (fun run => (run.operations_array, run.window.calls))
      = run_experiment_serial RAND_MAX n m m_member m_insert m_delete operations_array
          draws ∧
    (∀ array out,
      run_experiment_serial RAND_MAX n m m_member m_insert m_delete operations_array draws
        = .ok (array, out) →
      ∃ run, run_experiment_parallel RAND_MAX 1 n m m_member m_insert m_delete
          operations_array [] draws = .ok run ∧
        run.operations_array = array ∧ run.window.head = out.head ∧
        run.window.draws = out.draws ∧
        run.window.events.filter Event.is_call = out.events) ∧
    (∀ e,
      run_experiment_serial RAND_MAX n m m_member m_insert m_delete operations_array draws
        = .error e ↔
      run_experiment_parallel RAND_MAX 1 n m m_member m_insert m_delete operations_array []
        draws = .error e) ∧
    (∀ array out,
      run_experiment_serial RAND_MAX n m m_member m_insert m_delete operations_array draws
        = .ok (array, out) →
      ∃ draws1 head draws2,
        generate_operations RAND_MAX m m_member m_insert m_delete operations_array draws
          = .ok (array, draws1) ∧
        populate n draws1 = .ok (head, draws2) ∧
        serial_operations m array head draws2 = .ok out ∧
        m.toNat ≤ draws2.length ∧ out.draws = draws2.drop m.toNat) := by
  have heq := run_experiment_single_thread RAND_MAX n m m_member m_insert m_delete
    operations_array draws
  refine ⟨heq, fun array out h => ?_, fun e => ?_, fun array out h => ?_⟩
  · rw [h] at heq
    cases hp : run_experiment_parallel RAND_MAX 1 n m m_member m_insert m_delete
        operations_array [] draws with
    | error e =>
      rw [hp] at heq
      cases heq
    | ok run =>
      rw [hp] at heq
      simp only [Except.map, Except.ok.injEq, Prod.mk.injEq, Outcome.calls] at heq
      obtain ⟨h1, h2⟩ := heq
      refine ⟨run, rfl, h1, ?_, ?_, ?_⟩
      · rw [← h2]
      · rw [← h2]
      · rw [← h2]
  · cases hp : run_experiment_parallel RAND_MAX 1 n m m_member m_insert m_delete
        operations_array [] draws with
    | error e1 =>
      rw [hp] at heq
      rw [← heq]
      simp only [Except.map, Except.error.injEq]
    | ok run =>
      rw [hp] at heq
      rw [← heq]
      simp [Except.map]
  · unfold run_experiment_serial at h
    cases hg : generate_operations RAND_MAX m m_member m_insert m_delete operations_array
        draws with
    | error e => simp [hg, bind, Except.bind] at h
    | ok p =>
      obtain ⟨array1, draws1⟩ := p
      simp only [hg, bind, Except.bind] at h
      cases hpop : populate_loop n 0 [] draws1 with
      | error e => simp [hpop] at h
      | ok q =>
        obtain ⟨head, draws2⟩ := q
        simp only [hpop] at h
        cases hs : serial_operations m array1 head draws2 with
        | error e => simp [hs] at h
        | ok out1 =>
          simp only [hs, Except.ok.injEq, Prod.mk.injEq] at h
          obtain ⟨rfl, rfl⟩ := h
          obtain ⟨h1, h2⟩ := operations_loop_draws _ _ _ _ _ _ _ hs
          exact ⟨draws1, head, draws2, rfl, hpop, hs, h1, h2⟩

theorem single_thread_equals_serial_witness :
    run_experiment_serial 32767 2 3 double_0_5 double_0_5 double_0_0 [0, 0, 0, 0, 0]
        [1, 0, 5, 9, 7, 5, 3]
      = .ok ([0, 1, 2, 0, 0], ⟨[3, 5, 9], [], [Event.member 5 1, Event.insert 3 1]⟩) ∧
    run_experiment_parallel 32767 1 2 3 double_0_5 double_0_5 double_0_0 [0, 0, 0, 0, 0] []
        [1, 0, 5, 9, 7, 5, 3]
      = .ok ⟨[0, 1, 2, 0, 0],
          ⟨[3, 5, 9], [], [Event.rdlock, Event.member 5 1, Event.unlock,
            Event.rdlock, Event.insert 3 1, Event.unlock]⟩, []⟩ ∧
    ∃ run, run_experiment_parallel 32767 1 2 3 double_0_5 double_0_5 double_0_0
        [0, 0, 0, 0, 0] [] [1, 0, 5, 9, 7, 5, 3] = .ok run ∧
      run.operations_array = [0, 1, 2, 0, 0] ∧ run.window.head = [3, 5, 9] ∧
      run.window.draws = [] ∧
      run.window.events.filter Event.is_call = [Event.member 5 1, Event.insert 3 1] :=
  ⟨rfl, rfl,
   (single_thread_equals_serial 32767 2 3 double_0_5 double_0_5 double_0_0 [0, 0, 0, 0, 0]
      [1, 0, 5, 9, 7, 5, 3]).2.1 [0, 1, 2, 0, 0]
      ⟨[3, 5, 9], [], [Event.member 5 1, Event.insert 3 1]⟩ rfl⟩

/-- C16: `destroy` leaves the empty list whatever list it is given, releasing every node;
in the concurrent variant a repetition leaves the global list empty whatever list it was
entered with and whatever its threads did, so every repetition of `main` starts its
population phase on the empty list; in the serial variant the list of a repetition is a
local variable that starts empty, so the population phase is the one started on the empty
list there too. -/
theorem list_empty_at_start_of_repetition :
    (∀ head : List Int, (destroy head).1 = [] ∧ (destroy head).2 = head.length) ∧
    (∀ (RAND_MAX : Nat) (thread_count n m : Int) (m_member m_insert m_delete : Double)
        (operations_array head : List Int) (draws : List Nat) (run : ParallelRun),
      run_experiment_parallel RAND_MAX thread_count n m m_member m_insert m_delete
        operations_array head draws = .ok run → run.head = []) ∧
    (∀ (RAND_MAX : Nat) (thread_count n m : Int) (m_member m_insert m_delete : Double)
        (count : Nat) (operations_array : List Int) (draws : List Nat)
        (heads : List (List Int)),
      heads_at_start RAND_MAX thread_count n m m_member m_insert m_delete count
        operations_array [] draws = .ok heads →
      heads.length = count ∧ ∀ l ∈ heads, l = []) ∧
    (∀ (RAND_MAX : Nat) (n m : Int) (m_member m_insert m_delete : Double)
        (operations_array : List Int) (draws : List Nat) (array : List Int) (out : Outcome),
      run_experiment_serial RAND_MAX n m m_member m_insert m_delete operations_array draws
        = .ok (array, out) →
      ∃ draws1 head draws2,
        generate_operations RAND_MAX m m_member m_insert m_delete operations_array draws
          = .ok (array, draws1) ∧
        populate_loop n 0 [] draws1 = .ok (head, draws2) ∧
        serial_operations m array head draws2 = .ok out) := by
  refine ⟨fun head => ⟨rfl, ?_⟩, ?_, ?_, ?_⟩
  · unfold destroy
    induction head with
    | nil => rfl
    | cons x xs ih =>
      simp only [destroy_loop, List.length_cons]
      simpa using ih
  · intro RAND_MAX thread_count n m m_member m_insert m_delete operations_array head draws
      run h
    exact run_experiment_parallel_head _ _ _ _ _ _ _ _ _ _ _ h
  · intro RAND_MAX thread_count n m m_member m_insert m_delete count operations_array draws
      heads h
    exact heads_at_start_empty _ _ _ _ _ _ _ _ _ _ _ h
  · intro RAND_MAX n m m_member m_insert m_delete operations_array draws array out h
    unfold run_experiment_serial at h
    cases hg : generate_operations RAND_MAX m m_member m_insert m_delete operations_array
        draws with
    | error e => simp [hg, bind, Except.bind] at h
    | ok p =>
      obtain ⟨array1, draws1⟩ := p
      simp only [hg, bind, Except.bind] at h
      cases hpop : populate_loop n 0 [] draws1 with
      | error e => simp [hpop] at h
      | ok q =>
        obtain ⟨head, draws2⟩ := q
        simp only [hpop] at h
        cases hs : serial_operations m array1 head draws2 with
        | error e => simp [hs] at h
        | ok out1 =>
          simp only [hs, Except.ok.injEq, Prod.mk.injEq] at h
          obtain ⟨rfl, rfl⟩ := h
          exact ⟨draws1, head, draws2, rfl, hpop, hs⟩

theorem list_empty_at_start_of_repetition_witness :
    destroy [3, 5, 9] = ([], 3) ∧
    run_experiment_parallel 32767 1 2 3 double_0_5 double_0_5 double_0_0 [0, 0, 0, 0, 0]
        [4, 6] [1, 0, 5, 9, 7, 5, 3]
      = .ok ⟨[0, 1, 2, 0, 0],
          ⟨[3, 4, 5, 6, 9], [], [Event.rdlock, Event.member 5 1, Event.unlock,
            Event.rdlock, Event.insert 3 1, Event.unlock]⟩, []⟩ ∧
    heads_at_start 32767 1 2 3 double_0_5 double_0_5 double_0_0 2 [0, 0, 0, 0, 0] []
        [1, 0, 5, 9, 7, 5, 3, 1, 0, 5, 9, 7, 5, 3] = .ok [[], []] ∧
    ([[], []] : List (List Int)).length = 2 :=
  ⟨rfl, rfl, rfl,
   (list_empty_at_start_of_repetition.2.2.1 32767 1 2 3 double_0_5 double_0_5 double_0_0 2
      [0, 0, 0, 0, 0] [1, 0, 5, 9, 7, 5, 3, 1, 0, 5, 9, 7, 5, 3] [[], []] rfl).1⟩

/-! ## Claims about the lock -/

/-- C12: in the concurrent variant every operation that a thread dispatches, whether its tag
is Member, Insert or Delete, takes `rwlock` in read mode immediately before the call on the
list and releases it immediately after; a slot with any other tag makes no call; no thread
ever takes the lock in write mode; hence however the calls of two threads are interleaved
no acquisition ever has to wait, so two `insert` or `delete` calls can hold the lock at the
same time, which a write acquisition would exclude. -/
theorem thread_takes_read_lock_only (m thread_count rank1 rank2 : Int)
    (operations_array head1 head2 : List Int) (draws1 draws2 : List Nat)
    (out1 out2 : Outcome)
    (h1 : thread_operation m thread_count rank1 operations_array head1 draws1 = .ok out1)
    (h2 : thread_operation m thread_count rank2 operations_array head2 draws2 = .ok out2) :
    (∃ blocks : List (List Event), out1.events = blocks.flatten ∧
      blocks.length
        = (my_last_index m thread_count rank1 - my_start_index m thread_count rank1).toNat ∧
      ∀ b ∈ blocks, ReadBracketed b) ∧
    (∀ tag value head, tag = 1 ∨ tag = 2 ∨ tag = 3 →
      ∃ call, call.is_call = true ∧
        (switch_parallel tag value head).2 = [Event.rdlock, call, Event.unlock]) ∧
    (∀ tag value head, ¬ (tag = 1 ∨ tag = 2 ∨ tag = 3) →
      switch_parallel tag value head = (head, [])) ∧
    Event.wrlock ∉ out1.events ∧
    (∀ schedule : List Event, (∀ e ∈ schedule, e ∈ out1.events ∨ e ∈ out2.events) →
      ∃ s, RwLock.run RwLock.fresh schedule = some s ∧ s.writer = false) ∧
    RwLock.run RwLock.fresh [Event.rdlock, Event.rdlock] = some ⟨2, false⟩ ∧
    RwLock.run RwLock.fresh [Event.wrlock, Event.wrlock] = none ∧
    RwLock.run RwLock.fresh [Event.wrlock, Event.rdlock] = none ∧
    RwLock.run RwLock.fresh [Event.rdlock, Event.wrlock] = none := by
  obtain ⟨blocks1, e1, l1, b1⟩ := operations_loop_blocks _ _ _ _ _ _ h1
  obtain ⟨blocks2, e2, -, b2⟩ := operations_loop_blocks _ _ _ _ _ _ h2
  have w1 : Event.wrlock ∉ out1.events := e1 ▸ no_wrlock_of_blocks blocks1 b1
  have w2 : Event.wrlock ∉ out2.events := e2 ▸ no_wrlock_of_blocks blocks2 b2
  refine ⟨⟨blocks1, e1, l1, b1⟩, switch_parallel_tagged, switch_parallel_default, w1,
    fun schedule hs => ?_, rfl, rfl, rfl, rfl⟩
  apply lock_never_waits schedule RwLock.fresh _ rfl
  intro hw
  rcases hs _ hw with h | h
  · exact w1 h
  · exact w2 h

theorem thread_takes_read_lock_only_witness :
    thread_operation 4 2 0 [2, 3, 2, 1, 0] [5] [7, 5]
      = .ok ⟨[7], [], [Event.rdlock, Event.insert 7 1, Event.unlock,
          Event.rdlock, Event.delete 5 1, Event.unlock]⟩ ∧
    thread_operation 4 2 1 [2, 3, 2, 1, 0] [5] [9, 5]
      = .ok ⟨[5, 9], [], [Event.rdlock, Event.insert 9 1, Event.unlock,
          Event.rdlock, Event.member 5 1, Event.unlock]⟩ ∧
    Event.wrlock ∉ [Event.rdlock, Event.insert 7 1, Event.unlock,
      Event.rdlock, Event.delete 5 1, Event.unlock] ∧
    RwLock.run RwLock.fresh [Event.rdlock, Event.rdlock, Event.insert 7 1, Event.insert 9 1,
      Event.unlock, Event.unlock] = some ⟨0, false⟩ :=
  have h := thread_takes_read_lock_only 4 2 0 1 [2, 3, 2, 1, 0] [5] [5] [7, 5] [9, 5]
    ⟨[7], [], [Event.rdlock, Event.insert 7 1, Event.unlock,
      Event.rdlock, Event.delete 5 1, Event.unlock]⟩
    ⟨[5, 9], [], [Event.rdlock, Event.insert 9 1, Event.unlock,
      Event.rdlock, Event.member 5 1, Event.unlock]⟩ rfl rfl
  ⟨rfl, rfl, h.2.2.2.1, rfl⟩

/-! ## Claims about the validation -/

/-- C11: the validation does not bound `m` by the capacity of the operation buffer.  With
`m = 10001` and the fractions `1.0`, `0.0`, `0.0` both variants go on, and the first loop of
`generate_operations` then writes the slot `operations_array[10000]`, outside the buffer of
`MAX_OPERATIONS_SIZE` slots. -/
theorem oversized_m_leaves_buffer :
    initialise_serial 7 1 1 10001 double_1_0 double_0_0 double_0_0 = true ∧
    initialise_parallel 8 1 1 1 10001 double_1_0 double_0_0 double_0_0 = true ∧
    (List.replicate 10000 (0 : Int)).length = MAX_OPERATIONS_SIZE ∧
    generate_operations 2147483647 10001 double_1_0 double_0_0 double_0_0
      (List.replicate 10000 0) [] = .error Fault.out_of_bounds := by
  refine ⟨by decide, by decide, List.length_replicate _ _, ?_⟩
  exact generate_operations_overflow 2147483647 10001 double_1_0 double_0_0 double_0_0
    (List.replicate 10000 0) [] 10001 0 0 (by decide) (by decide) rfl rfl
    (by rw [List.length_replicate]; decide)

/-! ## Claims about truncated operation counts -/

/-- C14, as stated, fails for an accepted configuration with negative fractions.  With
`m = 4` and the fractions 1.5, -0.25, -0.25, whose sum is exactly 1.0, both variants go on;
the counts are 6, -1, -1, and the first loop of `generate_operations` writes tag 1 into the
slots 0 to 5, two of them beyond the first `m` slots. -/
theorem negative_fraction_overruns_m :
    initialise_serial 7 1 1 4 double_1_5 double_neg_0_25 double_neg_0_25 = true ∧
    initialise_parallel 8 1 1 1 4 double_1_5 double_neg_0_25 double_neg_0_25 = true ∧
    truncate (int_times 4 double_1_5) = 6 ∧
    truncate (int_times 4 double_neg_0_25) = -1 ∧
    layout_operations 6 (-1) (-1) (List.replicate 10000 0)
      = .ok (List.replicate 6 1 ++ List.replicate 9994 0) := by
  refine ⟨by decide, by decide, by decide, by decide, ?_⟩
  have h1 : fill (List.replicate 10000 0) 0 6 1
      = .ok (List.replicate 6 1 ++ List.replicate 9994 0) :=
    fill_eq (List.replicate 10000 0) 0 6 1 (by decide)
      (by rw [List.length_replicate]; decide)
  unfold layout_operations
  rw [h1]
  rfl

/-- C14, amended: for every configuration that the validation of either variant accepts,
whose three fractions are non-negative and whose `m` is at most 10000, the truncated counts
are non-negative and sum to at most `m`; the three loops of `generate_operations` write
exactly the slots below that sum, so inside the first `m` slots; whenever
`generate_operations` returns, every slot from `m` on is as before, and it never reads or
writes outside the buffer. -/
theorem runs_within_first_m (argc thread_count sample_size n m : Int)
    (m_member m_insert m_delete : Double) (operations_array : List Int)
    (hacc : initialise_serial argc sample_size n m m_member m_insert m_delete = true
      ∨ initialise_parallel argc thread_count sample_size n m m_member m_insert m_delete
        = true)
    (hnn : 0 ≤ m_member.man ∧ 0 ≤ m_insert.man ∧ 0 ≤ m_delete.man) (hcap : m ≤ 10000)
    (hbuf : operations_array.length = MAX_OPERATIONS_SIZE) :
    0 ≤ truncate (int_times m m_member) ∧ 0 ≤ truncate (int_times m m_insert) ∧
    0 ≤ truncate (int_times m m_delete) ∧
    truncate (int_times m m_member) + truncate (int_times m m_insert)
      + truncate (int_times m m_delete) ≤ m ∧
    layout_operations (truncate (int_times m m_member)) (truncate (int_times m m_insert))
        (truncate (int_times m m_delete)) operations_array
      = .ok (List.replicate (truncate (int_times m m_member)).toNat 1
          ++ List.replicate (truncate (int_times m m_insert)).toNat 2
          ++ List.replicate (truncate (int_times m m_delete)).toNat 3
          ++ operations_array.drop ((truncate (int_times m m_member)).toNat
              + (truncate (int_times m m_insert)).toNat
              + (truncate (int_times m m_delete)).toNat)) ∧
    (∀ (RAND_MAX : Nat) (draws : List Nat) (buf : List Int) (rest : List Nat),
      generate_operations RAND_MAX m m_member m_insert m_delete operations_array draws
        = .ok (buf, rest) →
      buf.length = MAX_OPERATIONS_SIZE ∧
      buf.drop m.toNat = operations_array.drop m.toNat) ∧
    (∀ (RAND_MAX : Nat) (draws : List Nat) (e : Fault),
      generate_operations RAND_MAX m m_member m_insert m_delete operations_array draws
        = .error e → e = Fault.no_draw) := by
  have hpos : 0 < m ∧ double_eq (double_add (double_add m_member m_insert) m_delete)
      double_1_0 = true := by
    rcases hacc with h | h
    · have := initialise_serial_accepts _ _ _ _ _ _ _ h
      exact ⟨this.2.2.2.1, this.2.2.2.2⟩
    · have := initialise_parallel_accepts _ _ _ _ _ _ _ _ h
      exact ⟨this.2.2.2.2.1, this.2.2.2.2.2⟩
  obtain ⟨t1, t2, t3, tsum⟩ := counts_within_m m m_member m_insert m_delete
    ⟨by omega, hcap⟩ hnn.1 hnn.2.1 hnn.2.2 hpos.2
  obtain ⟨c1, hc1⟩ := Int.eq_ofNat_of_zero_le t1
  obtain ⟨c2, hc2⟩ := Int.eq_ofNat_of_zero_le t2
  obtain ⟨c3, hc3⟩ := Int.eq_ofNat_of_zero_le t3
  rw [hc1, hc2, hc3] at tsum ⊢
  simp only [Int.toNat_ofNat]
  have hlen : m.toNat ≤ operations_array.length := by
    rw [hbuf, MAX_OPERATIONS_SIZE]; omega
  have hk : c1 + c2 + c3 ≤ m.toNat := by omega
  have hs : c1 + c2 + c3 ≤ 2147483647 := by omega
  refine ⟨Int.ofNat_nonneg _, Int.ofNat_nonneg _, Int.ofNat_nonneg _, tsum,
    layout_operations_eq c1 c2 c3 operations_array (by omega) hs, ?_, ?_⟩
  · intro RAND_MAX draws buf rest h
    rcases generate_operations_stays_in_front RAND_MAX m m_member m_insert m_delete
      operations_array draws c1 c2 c3 hc1 hc2 hc3 hk hlen hs with ⟨mix, rest1, hg, hl⟩ | hg
    · rw [hg] at h
      simp only [Except.ok.injEq, Prod.mk.injEq] at h
      rw [← h.1]
      refine ⟨?_, List.drop_left' hl⟩
      rw [List.length_append, hl, List.length_drop]
      omega
    · rw [hg] at h
      cases h
  · intro RAND_MAX draws e h
    rcases generate_operations_stays_in_front RAND_MAX m m_member m_insert m_delete
      operations_array draws c1 c2 c3 hc1 hc2 hc3 hk hlen hs with ⟨mix, rest1, hg, -⟩ | hg
    · rw [hg] at h
      cases h
    · rw [hg] at h
      simp only [Except.error.injEq] at h
      exact h.symm

theorem runs_within_first_m_witness :
    (initialise_serial 7 1 1 100 double_0_5 double_0_3 double_0_2 = true
      ∨ initialise_parallel 7 1 1 1 100 double_0_5 double_0_3 double_0_2 = true) ∧
    (0 ≤ double_0_5.man ∧ 0 ≤ double_0_3.man ∧ 0 ≤ double_0_2.man) ∧
    (100 : Int) ≤ 10000 ∧
    (List.replicate 10000 (0 : Int)).length = MAX_OPERATIONS_SIZE ∧
    truncate (int_times 100 double_0_5) + truncate (int_times 100 double_0_3)
      + truncate (int_times 100 double_0_2) ≤ 100 ∧
    truncate (int_times 100 double_0_3) = 30 :=
  ⟨Or.inl (by decide), by decide, by decide, List.length_replicate _ _,
   (runs_within_first_m 7 1 1 1 100 double_0_5 double_0_3 double_0_2
      (List.replicate 10000 0) (Or.inl (by decide)) (by decide) (by decide)
      (List.length_replicate _ _)).2.2.2.1,
   by decide⟩

end Lab2
